import Mathlib

/-!
# Verification of the veerer flip-sequence algebra

This file formalises the flip-sequence calculus of `veerer`
(`veerer/flip_sequence.py` and parts of `veerer/linear_family.py`) over a
shallow embedding.  The triangulation and permutation primitives consumed by
the flip-sequence layer (`veerer/veering_triangulation.py`,
`veerer/permutation.py`) are not part of the source excerpt; they are
modelled from the specification, with each such definition carrying a
`Modelled from the spec:` note.  The development covers the fragment in
which every colour is determinate (RED/BLUE): the spec gives no defining
equations for the PURPLE/reduced colour propagation performed by the absent
triangulation primitive, so that fragment is out of scope here.
-/

namespace Veerer

/-- Edge colours.  Modelled from the spec: `colouring`: mapping half-edge →
one of {RED, BLUE, PURPLE, GREEN}. -/
inductive Colour where
  | RED
  | BLUE
  | PURPLE
  | GREEN
deriving DecidableEq, Repr

/-- The opposite of a definite colour, as used by `inverse`
(`BLUE if oldcol == RED else RED`). -/
def Colour.opp : Colour → Colour
  | .RED => .BLUE
  | _ => .RED

/-- Modelled from the spec: a coloured triangulation holds a face permutation
`fp`, an edge involution `ep` and an edge colouring over `n` half-edges. -/
structure Tri (n : ℕ) where
  fp : Fin n → Fin n
  ep : Fin n → Fin n
  colouring : Fin n → Colour

theorem Tri.fields_ext {A B : Tri n} (hfp : A.fp = B.fp) (hep : A.ep = B.ep)
    (hcol : A.colouring = B.colouring) : A = B := by
  cases A
  cases B
  cases hfp
  cases hep
  cases hcol
  rfl

instance : DecidableEq (Tri n) := fun A B =>
  decidable_of_iff ((∀ i, A.fp i = B.fp i) ∧ (∀ i, A.ep i = B.ep i)
      ∧ (∀ i, A.colouring i = B.colouring i)) (by
    constructor
    · rintro ⟨h1, h2, h3⟩
      exact Tri.fields_ext (funext h1) (funext h2) (funext h3)
    · rintro rfl
      exact ⟨fun _ => rfl, fun _ => rfl, fun _ => rfl⟩)

/-- Number of edges: the canonical representatives are the half-edges `i`
with `i ≤ ep i` (an unfolded edge counts once through its lower half-edge, a
folded edge through its fixed point). -/
def Tri.numEdges (T : Tri n) : ℕ :=
  (Finset.univ.filter (fun i : Fin n => (i : ℕ) ≤ (T.ep i : ℕ))).card

/-- Executable inverse of a map `Fin n → Fin n`; agrees with the inverse
permutation on bijective inputs (the model of `perm_invert` /
`perm_preimage`). -/
def permInv (f : Fin n → Fin n) : Fin n → Fin n :=
  fun y => ((List.finRange n).find? (fun x => f x = y)).getD y

theorem permInv_rightInverse {f : Fin n → Fin n} (hf : Function.Surjective f)
    (y : Fin n) : f (permInv f y) = y := by
  obtain ⟨x, hx⟩ := hf y
  unfold permInv
  have hmem : x ∈ List.finRange n := List.mem_finRange x
  have : ((List.finRange n).find? (fun x => f x = y)).isSome := by
    rw [List.find?_isSome]
    exact ⟨x, hmem, by simp [hx]⟩
  obtain ⟨a, ha⟩ := Option.isSome_iff_exists.mp this
  have := List.find?_some ha
  simp only [decide_eq_true_eq] at this
  simp [ha, this]

theorem permInv_leftInverse {f : Fin n → Fin n} (hf : Function.Bijective f)
    (x : Fin n) : permInv f (f x) = x := by
  have h := permInv_rightInverse hf.2 (f x)
  exact hf.1 h

theorem permInv_eq_iff {f : Fin n → Fin n} (hf : Function.Bijective f)
    {x y : Fin n} : permInv f y = x ↔ y = f x := by
  constructor
  · rintro rfl
    exact (permInv_rightInverse hf.2 y).symm
  · rintro rfl
    exact permInv_leftInverse hf x

theorem permInv_bijective {f : Fin n → Fin n} (hf : Function.Bijective f) :
    Function.Bijective (permInv f) := by
  constructor
  · intro a b hab
    have := congrArg f hab
    rwa [permInv_rightInverse hf.2, permInv_rightInverse hf.2] at this
  · intro x
    exact ⟨f x, permInv_leftInverse hf x⟩

theorem permInv_comp {f g : Fin n → Fin n} (hf : Function.Bijective f)
    (hg : Function.Bijective g) (y : Fin n) :
    permInv (fun x => g (f x)) y = permInv f (permInv g y) := by
  have hgf : Function.Bijective (fun x => g (f x)) := hg.comp hf
  rw [permInv_eq_iff hgf]
  rw [permInv_rightInverse hf.2, permInv_rightInverse hg.2]

theorem permInv_id : permInv (fun x : Fin n => x) = fun x => x := by
  funext y
  exact permInv_leftInverse Function.bijective_id y

/-- Relabelling a triangulation by a permutation `p`: half-edge `i` is
renamed `p i`, so the structural maps are conjugated and the colouring is
pulled back.  Modelled from the spec: the triangulation primitive
`relabel(permutation)` (conjugation of the half-edge permutations). -/
def relabelTri (p : Fin n → Fin n) (T : Tri n) : Tri n where
  fp := fun x => p (T.fp (permInv p x))
  ep := fun x => p (T.ep (permInv p x))
  colouring := fun x => T.colouring (permInv p x)

theorem relabelTri_id (T : Tri n) : relabelTri (fun x => x) T = T := by
  unfold relabelTri
  simp [permInv_id]

theorem relabelTri_comp {p q : Fin n → Fin n} (hp : Function.Bijective p)
    (hq : Function.Bijective q) (T : Tri n) :
    relabelTri p (relabelTri q T) = relabelTri (fun x => p (q x)) T := by
  unfold relabelTri
  simp only [Tri.mk.injEq]
  refine ⟨funext fun x => ?_, funext fun x => ?_, funext fun x => ?_⟩ <;>
    rw [permInv_comp hq hp]

/-- The face-permutation update of a flip: sequential assignments
`fp[e]:=b, fp[b]:=c, fp[c]:=e, fp[E]:=d, fp[d]:=a, fp[a]:=E` (last write
wins, hence the reversed `if` chain). -/
def flipFp (f : Fin n → Fin n) (e E a b c d : Fin n) : Fin n → Fin n :=
  fun x =>
    if x = a then E
    else if x = d then a
    else if x = E then d
    else if x = c then e
    else if x = b then c
    else if x = e then b
    else f x

/-- Modelled from the spec: the triangulation primitive
`flip(edge, colour)` — the local re-triangulation move replacing the
diagonal `e` of the quadrilateral formed by its two adjacent triangles
`(e,a,b)` and `(E,c,d)` with the other diagonal, producing the triangles
`(e,b,c)` and `(E,d,a)`, and recolouring both half-edges of `e` with the
target colour.  The geometric flippability precondition is kept separate
(`flipSquareOk`); the move itself is total, mirroring the unchecked
mutation. -/
def triFlip (T : Tri n) (e : Fin n) (col : Colour) : Tri n where
  fp := flipFp T.fp e (T.ep e) (T.fp e) (T.fp (T.fp e)) (T.fp (T.ep e))
    (T.fp (T.fp (T.ep e)))
  ep := T.ep
  colouring := fun x => if x = e then col else if x = T.ep e then col
    else T.colouring x

/-- Pairwise distinctness of the six half-edges around a flippable edge. -/
def sixDistinct (e a b E c d : Fin n) : Prop :=
  e ≠ a ∧ e ≠ b ∧ e ≠ E ∧ e ≠ c ∧ e ≠ d ∧ a ≠ b ∧ a ≠ E ∧ a ≠ c ∧ a ≠ d ∧
  b ≠ E ∧ b ≠ c ∧ b ≠ d ∧ E ≠ c ∧ E ≠ d ∧ c ≠ d

/-- The combinatorial validity of a flip at `e`: the two faces about the
edge are genuine triangles `(e,a,b)` and `(E,c,d)` on six pairwise distinct
half-edges, and `e`, `ep e` have no `fp`-preimages besides their triangle
predecessors (automatic when `fp` is a permutation).  Modelled from the
spec: the triangulation primitive fails on a geometrically invalid flip;
recorded flips are always valid. -/
def flipSquareOk (T : Tri n) (e : Fin n) : Prop :=
  T.fp (T.fp (T.fp e)) = e ∧ T.fp (T.fp (T.fp (T.ep e))) = T.ep e ∧
  (∀ x, T.fp x = e → x = T.fp (T.fp e)) ∧
  (∀ x, T.fp x = T.ep e → x = T.fp (T.fp (T.ep e))) ∧
  sixDistinct e (T.fp e) (T.fp (T.fp e)) (T.ep e) (T.fp (T.ep e))
    (T.fp (T.fp (T.ep e)))

instance (T : Tri n) (e : Fin n) : Decidable (flipSquareOk T e) := by
  unfold flipSquareOk sixDistinct
  infer_instance

theorem triFlip_ep (T : Tri n) (e : Fin n) (col : Colour) :
    (triFlip T e col).ep = T.ep := rfl

/-- The `fp` update is the same whether the flip is performed at `e` or at
its opposite half-edge: the six assignments coincide, only the write order
changes, and the keys are pairwise distinct. -/
theorem flipFp_symm (f : Fin n → Fin n) (e E a b c d : Fin n)
    (h : sixDistinct e a b E c d) :
    flipFp f E e c d a b = flipFp f e E a b c d := by
  obtain ⟨hea, heb, heE, hec, hed, hab, haE, hac, had, hbE, hbc, hbd, hEc,
    hEd, hcd⟩ := h
  have symms := And.intro (Ne.symm hea) (And.intro (Ne.symm heb)
    (And.intro (Ne.symm heE) (And.intro (Ne.symm hec) (And.intro
    (Ne.symm hed) (And.intro (Ne.symm hab) (And.intro (Ne.symm haE)
    (And.intro (Ne.symm hac) (And.intro (Ne.symm had) (And.intro
    (Ne.symm hbE) (And.intro (Ne.symm hbc) (And.intro (Ne.symm hbd)
    (And.intro (Ne.symm hEc) (And.intro (Ne.symm hEd) (Ne.symm hcd))))))))))))))
  obtain ⟨sea, seb, seE, sec, sed, sab, saE, sac, sad, sbE, sbc, sbd, sEc,
    sEd, scd⟩ := symms
  funext x
  unfold flipFp
  by_cases hxa : x = a
  · subst hxa
    simp [hea, heb, heE, hec, hed, hab, haE, hac, had, hbE, hbc, hbd, hEc,
      hEd, hcd, sea, seb, seE, sec, sed, sab, saE, sac, sad, sbE, sbc, sbd,
      sEc, sEd, scd]
  by_cases hxd : x = d
  · subst hxd
    simp [hxa, hea, heb, heE, hec, hed, hab, haE, hac, had, hbE, hbc, hbd,
      hEc, hEd, hcd, sea, seb, seE, sec, sed, sab, saE, sac, sad, sbE, sbc,
      sbd, sEc, sEd, scd]
  by_cases hxE : x = E
  · subst hxE
    simp [hxa, hxd, hea, heb, heE, hec, hed, hab, haE, hac, had, hbE, hbc,
      hbd, hEc, hEd, hcd, sea, seb, seE, sec, sed, sab, saE, sac, sad, sbE,
      sbc, sbd, sEc, sEd, scd]
  by_cases hxc : x = c
  · subst hxc
    simp [hxa, hxd, hxE, hea, heb, heE, hec, hed, hab, haE, hac, had, hbE,
      hbc, hbd, hEc, hEd, hcd, sea, seb, seE, sec, sed, sab, saE, sac, sad,
      sbE, sbc, sbd, sEc, sEd, scd]
  by_cases hxb : x = b
  · subst hxb
    simp [hxa, hxd, hxE, hxc, hea, heb, heE, hec, hed, hab, haE, hac, had,
      hbE, hbc, hbd, hEc, hEd, hcd, sea, seb, seE, sec, sed, sab, saE, sac,
      sad, sbE, sbc, sbd, sEc, sEd, scd]
  by_cases hxe : x = e
  · subst hxe
    simp [hxa, hxd, hxE, hxc, hxb, hea, heb, heE, hec, hed, hab, haE, hac,
      had, hbE, hbc, hbd, hEc, hEd, hcd, sea, seb, seE, sec, sed, sab, saE,
      sac, sad, sbE, sbc, sbd, sEc, sEd, scd]
  · simp [hxa, hxd, hxE, hxc, hxb, hxe]

/-- Flipping is insensitive to the orientation of the edge: flipping the
opposite half-edge performs the same move (spec: "flips are insensitive to
edge orientation"). -/
theorem triFlip_ep_symm (T : Tri n) (e : Fin n) (col : Colour)
    (hinv : T.ep (T.ep e) = e) (hok : flipSquareOk T e) :
    triFlip T (T.ep e) col = triFlip T e col := by
  obtain ⟨hb, hd, -, -, hdist⟩ := hok
  unfold triFlip
  rw [Tri.mk.injEq]
  refine ⟨?_, rfl, ?_⟩
  · rw [hinv]
    exact flipFp_symm T.fp e (T.ep e) (T.fp e) (T.fp (T.fp e))
      (T.fp (T.ep e)) (T.fp (T.fp (T.ep e))) hdist
  · funext x
    rw [hinv]
    obtain ⟨-, -, heE, -⟩ := hdist
    by_cases h1 : x = e <;> by_cases h2 : x = T.ep e <;> simp_all

theorem flipFp_conj {p : Fin n → Fin n} (hp : Function.Bijective p)
    (f : Fin n → Fin n) (e E a b c d : Fin n) :
    (fun x => p (flipFp f e E a b c d (permInv p x))) =
      flipFp (fun x => p (f (permInv p x))) (p e) (p E) (p a) (p b) (p c)
        (p d) := by
  funext x
  unfold flipFp
  simp only [permInv_eq_iff hp, apply_ite p]

/-- Flipping commutes with relabelling: the move is defined purely in terms
of `fp`, `ep` and the flipped half-edge, hence is equivariant under
conjugation. -/
theorem relabelTri_triFlip {p : Fin n → Fin n} (hp : Function.Bijective p)
    (T : Tri n) (e : Fin n) (col : Colour) :
    relabelTri p (triFlip T e col) = triFlip (relabelTri p T) (p e) col := by
  unfold relabelTri triFlip
  rw [Tri.mk.injEq]
  refine ⟨?_, rfl, ?_⟩
  · rw [flipFp_conj hp]
    simp only [permInv_leftInverse hp]
  · funext x
    simp only [permInv_eq_iff hp, permInv_leftInverse hp]

/-- `flipSquareOk` is preserved by relabelling. -/
theorem flipSquareOk_relabel {p : Fin n → Fin n} (hp : Function.Bijective p)
    {T : Tri n} {e : Fin n} (h : flipSquareOk T e) :
    flipSquareOk (relabelTri p T) (p e) := by
  obtain ⟨h1, h2, h3, h4, hd⟩ := h
  obtain ⟨d1, d2, d3, d4, d5, d6, d7, d8, d9, d10, d11, d12, d13, d14,
    d15⟩ := hd
  have hinj : ∀ {x y : Fin n}, p x = p y → x = y := fun h => hp.1 h
  have happ : ∀ x, (relabelTri p T).fp (p x) = p (T.fp x) := by
    intro x
    simp [relabelTri, permInv_leftInverse hp]
  have happ' : ∀ x, (relabelTri p T).ep (p x) = p (T.ep x) := by
    intro x
    simp [relabelTri, permInv_leftInverse hp]
  refine ⟨?_, ?_, ?_, ?_, ?_⟩
  · simp only [happ, h1]
  · simp only [happ, happ', h2]
  · intro y hy
    obtain ⟨x, rfl⟩ := hp.2 y
    rw [happ] at hy
    rw [happ, happ, h3 x (hinj hy)]
  · intro y hy
    obtain ⟨x, rfl⟩ := hp.2 y
    rw [happ, happ'] at hy
    rw [happ', happ, happ, h4 x (hinj hy)]
  · unfold sixDistinct
    simp only [happ, happ']
    exact ⟨fun h => d1 (hinj h), fun h => d2 (hinj h), fun h => d3 (hinj h),
      fun h => d4 (hinj h), fun h => d5 (hinj h), fun h => d6 (hinj h),
      fun h => d7 (hinj h), fun h => d8 (hinj h), fun h => d9 (hinj h),
      fun h => d10 (hinj h), fun h => d11 (hinj h), fun h => d12 (hinj h),
      fun h => d13 (hinj h), fun h => d14 (hinj h), fun h => d15 (hinj h)⟩

/-- `flipSquareOk` is insensitive to the orientation of the edge. -/
theorem flipSquareOk_ep {T : Tri n} {e : Fin n} (hinv : T.ep (T.ep e) = e)
    (h : flipSquareOk T e) : flipSquareOk T (T.ep e) := by
  obtain ⟨h1, h2, h3, h4, hd⟩ := h
  obtain ⟨d1, d2, d3, d4, d5, d6, d7, d8, d9, d10, d11, d12, d13, d14,
    d15⟩ := hd
  unfold flipSquareOk sixDistinct
  rw [hinv]
  exact ⟨h2, h1, h4, h3, d13, d14, Ne.symm d3, Ne.symm d7, Ne.symm d10, d15,
    Ne.symm d4, Ne.symm d8, Ne.symm d11, Ne.symm d5, Ne.symm d9,
    Ne.symm d12, d1, d2, d6⟩

/-- Python error kinds surfaced by the modelled operations. -/
inductive Err where
  | typeError
  | valueError
  | assertionError
  | nameError
deriving DecidableEq, Repr

/-- The state of a `VeeringFlipSequence`: the immutable snapshot `_start`,
the current `_end`, the log `_flips` of triples `(edge, col_after,
col_before)` and the accumulated relabelling `_relabelling`.  The
relabelling is kept as a raw map because `swap` overwrites entries in
place. -/
structure VFS (n : ℕ) where
  startT : Tri n
  endT : Tri n
  flips : List (Fin n × Colour × Colour)
  rel : Fin n → Fin n

theorem VFS.parts_ext {F G : VFS n} (hs : F.startT = G.startT)
    (he : F.endT = G.endT) (hf : F.flips = G.flips)
    (hr : F.rel = G.rel) : F = G := by
  cases F
  cases G
  cases hs
  cases he
  cases hf
  cases hr
  rfl

instance : DecidableEq (VFS n) := fun F G =>
  decidable_of_iff (F.startT = G.startT ∧ F.endT = G.endT
      ∧ F.flips = G.flips ∧ ∀ i, F.rel i = G.rel i) (by
    constructor
    · rintro ⟨h1, h2, h3, h4⟩
      exact VFS.parts_ext h1 h2 h3 (funext h4)
    · rintro rfl
      exact ⟨rfl, rfl, rfl, fun _ => rfl⟩)

/-- `VeeringFlipSequence(start)` with no flips and no relabelling (the
non-reduced fragment: no PURPLE in `start`, hence no
`forgot_forward_flippable_colour` call). -/
def mkSeq (T : Tri n) : VFS n := ⟨T, T, [], fun x => x⟩

/-- `VeeringFlipSequence.flip(e, col)`: read the old colour at `e`,
canonicalize `e` below the edge involution, flip `_end`, pull the edge back
through the current relabelling when it moves it, and append the triple. -/
def flipOp (F : VFS n) (e : Fin n) (col : Colour) : VFS n :=
  let ep := F.endT.ep
  let oldcol := F.endT.colouring e
  let e1 := if (ep e : ℕ) < (e : ℕ) then ep e else e
  let e2 := if F.rel e1 ≠ e1 then
      (let q := permInv F.rel e1
       if (ep q : ℕ) < (q : ℕ) then ep q else q)
    else e1
  { F with endT := triFlip F.endT e1 col,
           flips := F.flips ++ [(e2, col, oldcol)] }

/-- `VeeringFlipSequence.relabel(r)` once `r` has been validated: relabel
`_end` and compose `r` into the accumulated relabelling
(`perm_compose(self._relabelling, r)`). -/
def relabelOp (F : VFS n) (r : Fin n → Fin n) : VFS n :=
  { F with endT := relabelTri r F.endT,
           rel := fun i => r (F.rel i) }

/-- `VeeringFlipSequence.swap(e)`: swap the orientation label of `e` on
`_end` (modelled from the spec: the triangulation primitive relabels the
pair `e, ep e` by their transposition) and overwrite the entries `e` and
`ep e` of the relabelling array in place. -/
def swapOp (F : VFS n) (e : Fin n) : VFS n :=
  let E := F.endT.ep e
  { F with
      endT := relabelTri (fun x => if x = e then E else if x = E then e
        else x) F.endT,
      rel := fun x => if x = e then E else if x = E then e
        else F.rel x }

/-- Replay `(edge, colour)` pairs through the flip-sequence constructor
(each pair goes through `flipOp`), then apply the final relabelling: the
model of `VeeringFlipSequence(start, sequence, relabelling)`. -/
def buildSeq (T : Tri n) (fs : List (Fin n × Colour)) (r : Fin n → Fin n) :
    VFS n :=
  relabelOp (fs.foldl (fun F f => flipOp F f.1 f.2) (mkSeq T)) r

/-- `VeeringFlipSequence._check()`: rebuild the sequence from
`(start, flips, relabelling)` through the constructor and compare all four
recorded fields. -/
def checkB (F : VFS n) : Bool :=
  decide (buildSeq F.startT (F.flips.map (fun t => (t.1, t.2.1))) F.rel
    = F)

/-- Direct application of recorded triples to a triangulation (the
semantic replay; `buildSeq` is proved to coincide with it on canonical
logs). -/
def applyTriples (fs : List (Fin n × Colour × Colour)) (T : Tri n) :
    Tri n :=
  fs.foldl (fun T t => triFlip T t.1 t.2.1) T

/-- Normalisation of a half-edge to its edge representative via the edge
count (`e if e < ne else ep[e]`), the form used by `__imul__`, `__pow__`
and `unflipped_edges`. -/
def canonE (T : Tri n) (x : Fin n) : Fin n :=
  if (x : ℕ) < T.numEdges then x else T.ep x

/-- The edge-representative pullback used by `__imul__` and `__pow__` on a
flip triple: `(r[e] if r[e] < ne else ep[r[e]], col, oldcol)` with `r` the
inverse of the accumulated relabelling. -/
def pullback (F : VFS n) (t : Fin n × Colour × Colour) :
    Fin n × Colour × Colour :=
  (canonE F.startT (permInv F.rel t.1), t.2.1, t.2.2)

/-- The state built by `__imul__`: `self`'s flips followed by `other`'s
flips pulled back, `other`'s end, and the composed relabelling. -/
def imulRes (F G : VFS n) : VFS n where
  startT := F.startT
  endT := G.endT
  flips := F.flips ++ G.flips.map (pullback F)
  rel := fun i => G.rel (F.rel i)

/-- `VeeringFlipSequence.__imul__`: check composability, build the
composite state, then run `_check`. -/
def imulE (F G : VFS n) : Except Err (VFS n) :=
  if F.endT ≠ G.startT then .error .valueError
  else if checkB (imulRes F G) then .ok (imulRes F G)
  else .error .assertionError

/-- `VeeringFlipSequence.__mul__`: copy then `__imul__` (the copy has value
semantics here; the reference-sharing of the relabelling array is modelled
separately in the store-based fragment below). -/
def mulE (F G : VFS n) : Except Err (VFS n) := imulE F G

/-- The body of the replication loop of `__pow__`: `m * (k - 1)` times,
append the pullback of the element `m` places before the end of the
growing list. -/
def powLoop (pb : α → α) (m : ℕ) : ℕ → List α → List α
  | 0, res => res
  | s + 1, res =>
      match res.get? (res.length - m) with
      | some t => powLoop pb m s (res ++ [pb t])
      | none => powLoop pb m s res

/-- The state built by `__pow__` for `k ≥ 2`: the relabelling raised to the
`k`-th power, and the log extended by `m * (k-1)` replicated, pulled-back
entries. -/
def powRes (F : VFS n) (k : ℕ) : VFS n :=
  { F with rel := F.rel^[k],
           flips := powLoop (pullback F) F.flips.length
             (F.flips.length * (k - 1)) F.flips }

/-- `VeeringFlipSequence.__pow__` for a non-negative exponent: requires a
closed sequence; `k = 0` yields the identity sequence at `_start`, `k = 1`
returns the sequence itself, and `k ≥ 2` replicates the log; then runs
`_check`. -/
def powE (F : VFS n) (k : ℕ) : Except Err (VFS n) :=
  if F.endT ≠ F.startT then .error .valueError
  else if k = 0 then .ok (mkSeq F.startT)
  else if k = 1 then .ok F
  else if checkB (powRes F k) then .ok (powRes F k)
  else .error .assertionError

/-- The edge-propagation step of `unflipped_edges`: apply the relabelling
and normalise to the edge representative. -/
def unflipStep (F : VFS n) (e : Fin n) : Fin n :=
  if (F.rel e : ℕ) < F.startT.numEdges then F.rel e
  else F.startT.ep (F.rel e)

/-- One pass of the worklist loop of `unflipped_edges`: for each `e` in the
worklist, add its image (if new) to the flipped set and to the next
worklist. -/
def unflipPass (F : VFS n) (acc : Finset (Fin n) × List (Fin n))
    (e : Fin n) : Finset (Fin n) × List (Fin n) :=
  let e' := unflipStep F e
  if e' ∈ acc.1 then acc else (insert e' acc.1, acc.2 ++ [e'])

/-- The worklist loop of `unflipped_edges` (`while len(flipped) < n and
modified`), with explicit fuel; `numEdges + 1` rounds always reach the
fixed point. -/
def unflipLoop (F : VFS n) : ℕ → Finset (Fin n) → List (Fin n) →
    Finset (Fin n)
  | 0, flipped, _ => flipped
  | fuel + 1, flipped, new =>
      if flipped.card < F.startT.numEdges then
        let p := new.foldl (unflipPass F) (flipped, [])
        if p.2.isEmpty then flipped else unflipLoop F fuel p.1 p.2
      else flipped

/-- `VeeringFlipSequence.unflipped_edges()`: only defined on closed
sequences; seeds the flipped set with the edges of the log, closes it under
the relabelling action, and returns the complement among the edge
representatives.  (Python iterates the seed set in unspecified order; the
result is proved independent of that order.) -/
def unflippedE (F : VFS n) : Except Err (Finset (Fin n)) :=
  if F.startT ≠ F.endT then .error .typeError
  else
    let ne := F.startT.numEdges
    let seeds := (F.flips.map (fun t => t.1)).dedup
    let flipped := seeds.toFinset
    if flipped.card = ne then .ok ∅
    else
      let res := unflipLoop F (n + 1) flipped seeds
      .ok ((Finset.univ.filter (fun e : Fin n => (e : ℕ) < ne)) \ res)

/-- `VeeringFlipSequence.is_pseudo_anosov()`. -/
def isPA (F : VFS n) : Bool :=
  if F.startT ≠ F.endT then false
  else
    match unflippedE F with
    | .ok s => s = ∅
    | .error _ => false

/-- The rotation of a veering triangulation by a quarter turn.  Modelled
from the spec and the `rotate` doctest of `linear_family.py`: the face and
edge permutations are unchanged and the colouring is exchanged
(RED ↔ BLUE, and the two undetermined colours PURPLE ↔ GREEN). -/
def Colour.rot : Colour → Colour
  | .RED => .BLUE
  | .BLUE => .RED
  | .PURPLE => .GREEN
  | .GREEN => .PURPLE

def rotTri (T : Tri n) : Tri n :=
  { T with colouring := fun x => (T.colouring x).rot }

/-- The in-place value swap `c[i], c[ep[i]] = c[ep[i]], c[i]` used by
`inverse` to build the orientation-correcting permutation. -/
def swapVals (c : Fin n → Fin n) (i j : Fin n) : Fin n → Fin n :=
  fun x => if x = i then c j else if x = j then c i else c x

/-- The reversed, translated and colour-opposed flip list of `inverse()`:
`[(relabelling[e], opposite(oldcol)) for (e, _, oldcol) in
reversed(flips)]`. -/
def invFlips (F : VFS n) : List (Fin n × Colour) :=
  F.flips.reverse.map (fun t => (F.rel t.1, Colour.opp t.2.2))

/-- The orientation-correcting permutation of `inverse()`: swap the values
at `i` and `ep i` for each inverted flip. -/
def invCorr (F : VFS n) : Fin n → Fin n :=
  (invFlips F).foldl (fun c f => swapVals c f.1 (F.startT.ep f.1))
    (fun x => x)

/-- The flip sequence built by `inverse()`: the rotated end, the inverted
flips, and `perm_compose(c, perm_invert(relabelling))`. -/
def invRes (F : VFS n) : VFS n :=
  buildSeq (rotTri F.endT) (invFlips F)
    (fun i => permInv F.rel (invCorr F i))

/-- `VeeringFlipSequence.inverse()` in the non-reduced fragment (no PURPLE
in `_start`, so `coloured_flips` is the log itself): reverse the log,
translating each edge through the relabelling and opposing its old colour;
correct the inverted relabelling by the swaps of the odd-flipped edges;
rotate a copy of `_end` and rebuild through the constructor, finally
running `_check`. -/
def inverseE (F : VFS n) : Except Err (VFS n) :=
  if ¬ (∀ t ∈ F.flips, t.2.2 = Colour.RED ∨ t.2.2 = Colour.BLUE) then
    .error .assertionError
  else if checkB (invRes F) then .ok (invRes F)
  else .error .assertionError

/-! ## Well-formedness

The spec's data-model invariants (§3): the edge involution is an involution
in canonical form (representatives first), the colouring is well defined on
edges, the relabelling is a permutation respecting the edge involution, and
replaying the log from `start` reproduces `end`.  The development covers
the non-reduced fragment: all colours are RED or BLUE. -/

/-- One valid replay step: the recorded edge is a canonical representative,
the recorded old colour is the current colour, and the flip is
combinatorially valid. -/
def stepOkB (T : Tri n) (t : Fin n × Colour × Colour) : Bool :=
  decide ((t.1 : ℕ) ≤ (T.ep t.1 : ℕ)) &&
  decide (T.colouring t.1 = t.2.2) &&
  decide (flipSquareOk T t.1)

/-- Validity of a whole replay. -/
def replayOkB (T : Tri n) : List (Fin n × Colour × Colour) → Bool
  | [] => true
  | t :: fs => stepOkB T t && replayOkB (triFlip T t.1 t.2.1) fs

/-- Structural invariants of a veering triangulation snapshot. -/
def TriWF (T : Tri n) : Prop :=
  (∀ x, T.ep (T.ep x) = x) ∧
  (∀ x : Fin n, (x : ℕ) < T.numEdges ↔ (x : ℕ) ≤ (T.ep x : ℕ)) ∧
  (∀ x, T.colouring (T.ep x) = T.colouring x) ∧
  (∀ x, T.colouring x = Colour.RED ∨ T.colouring x = Colour.BLUE)

/-- The invariants of a flip sequence (spec §3). -/
def WF (F : VFS n) : Prop :=
  TriWF F.startT ∧
  Function.Bijective F.rel ∧
  (∀ x, F.rel (F.startT.ep x) = F.startT.ep (F.rel x)) ∧
  (∀ t ∈ F.flips, t.2.1 = Colour.RED ∨ t.2.1 = Colour.BLUE) ∧
  replayOkB F.startT F.flips = true ∧
  F.endT = relabelTri F.rel (applyTriples F.flips F.startT)

theorem applyTriples_nil (T : Tri n) : applyTriples [] T = T := rfl

theorem applyTriples_cons (t : Fin n × Colour × Colour)
    (fs : List (Fin n × Colour × Colour)) (T : Tri n) :
    applyTriples (t :: fs) T = applyTriples fs (triFlip T t.1 t.2.1) := rfl

theorem applyTriples_append (fs gs : List (Fin n × Colour × Colour))
    (T : Tri n) :
    applyTriples (fs ++ gs) T = applyTriples gs (applyTriples fs T) :=
  List.foldl_append ..

theorem applyTriples_ep (fs : List (Fin n × Colour × Colour)) (T : Tri n) :
    (applyTriples fs T).ep = T.ep := by
  induction fs generalizing T with
  | nil => rfl
  | cons t fs ih => rw [applyTriples_cons, ih, triFlip_ep]

theorem numEdges_triFlip (T : Tri n) (e : Fin n) (col : Colour) :
    (triFlip T e col).numEdges = T.numEdges := rfl

theorem numEdges_applyTriples (fs : List (Fin n × Colour × Colour))
    (T : Tri n) : (applyTriples fs T).numEdges = T.numEdges := by
  unfold Tri.numEdges
  rw [applyTriples_ep]

/-- Relabelling by an `ep`-equivariant permutation leaves `ep` unchanged. -/
theorem relabelTri_ep_comm {p : Fin n → Fin n} (hp : Function.Bijective p)
    {T : Tri n} (hcomm : ∀ x, p (T.ep x) = T.ep (p x)) :
    (relabelTri p T).ep = T.ep := by
  funext x
  show p (T.ep (permInv p x)) = T.ep x
  rw [hcomm, permInv_rightInverse hp.2]

theorem numEdges_relabelTri {p : Fin n → Fin n} (hp : Function.Bijective p)
    {T : Tri n} (hcomm : ∀ x, p (T.ep x) = T.ep (p x)) :
    (relabelTri p T).numEdges = T.numEdges := by
  unfold Tri.numEdges
  rw [relabelTri_ep_comm hp hcomm]

theorem triFlip_colouring (T : Tri n) (e : Fin n) (col : Colour)
    (x : Fin n) :
    (triFlip T e col).colouring x =
      if x = e then col else if x = T.ep e then col else T.colouring x :=
  rfl

/-- The colouring invariants are preserved by a flip with a definite
colour. -/
theorem triFlip_colOk {T : Tri n} (hinv : ∀ x, T.ep (T.ep x) = x)
    (hcoh : ∀ x, T.colouring (T.ep x) = T.colouring x)
    {e : Fin n} {col : Colour} :
    (∀ x, (triFlip T e col).colouring (T.ep x) =
      (triFlip T e col).colouring x) := by
  intro x
  simp only [triFlip_colouring]
  by_cases h1 : x = e
  · subst h1
    by_cases h2 : T.ep x = x <;> simp [h2]
  · by_cases h2 : x = T.ep e
    · subst h2
      simp [hinv e, h1]
    · have hn1 : T.ep x ≠ e := fun h => h2 (by rw [← h, hinv])
      have hn2 : T.ep x ≠ T.ep e := fun h => h1 (by
        have := congrArg T.ep h
        rwa [hinv, hinv] at this)
      simp [hn1, hn2, h1, h2, hcoh]

theorem triFlip_colRB {T : Tri n}
    (hrb : ∀ x, T.colouring x = Colour.RED ∨ T.colouring x = Colour.BLUE)
    {e : Fin n} {col : Colour}
    (hcol : col = Colour.RED ∨ col = Colour.BLUE) :
    ∀ x, (triFlip T e col).colouring x = Colour.RED ∨
      (triFlip T e col).colouring x = Colour.BLUE := by
  intro x
  simp only [triFlip_colouring]
  by_cases h1 : x = e <;> by_cases h2 : x = T.ep e <;>
    simp [h1, h2, hcol, hrb x]

theorem TriWF_triFlip {T : Tri n} (h : TriWF T) {e : Fin n} {col : Colour}
    (hcol : col = Colour.RED ∨ col = Colour.BLUE) :
    TriWF (triFlip T e col) := by
  obtain ⟨hinv, hcanon, hcoh, hrb⟩ := h
  exact ⟨hinv, hcanon, triFlip_colOk hinv hcoh, triFlip_colRB hrb hcol⟩

theorem TriWF_applyTriples {T : Tri n} (h : TriWF T)
    {fs : List (Fin n × Colour × Colour)}
    (hcols : ∀ t ∈ fs, t.2.1 = Colour.RED ∨ t.2.1 = Colour.BLUE) :
    TriWF (applyTriples fs T) := by
  induction fs generalizing T with
  | nil => exact h
  | cons t fs ih =>
    rw [applyTriples_cons]
    refine ih ?_ (fun u hu => hcols u (List.mem_cons_of_mem t hu))
    have hep : (triFlip T t.1 t.2.1).ep = T.ep := triFlip_ep ..
    have hne : (triFlip T t.1 t.2.1).numEdges = T.numEdges := rfl
    exact TriWF_triFlip h (hcols t (List.mem_cons_self t fs))

/-- Plain application of `(edge, colour)` pairs. -/
def applyFlips (fs : List (Fin n × Colour)) (T : Tri n) : Tri n :=
  fs.foldl (fun T f => triFlip T f.1 f.2) T

/-- The triples recorded when replaying `(edge, colour)` pairs from `T`:
each flip is annotated with the colour it overwrites. -/
def annotate (T : Tri n) : List (Fin n × Colour) →
    List (Fin n × Colour × Colour)
  | [] => []
  | f :: fs => (f.1, f.2, T.colouring f.1) :: annotate (triFlip T f.1 f.2) fs

theorem flipOp_id_relab (F : VFS n) (e : Fin n) (col : Colour)
    (hrel : F.rel = fun x => x)
    (hcanon : ¬ ((F.endT.ep e : ℕ) < (e : ℕ))) :
    flipOp F e col = { F with endT := triFlip F.endT e col,
                              flips := F.flips ++
                                [(e, col, F.endT.colouring e)] } := by
  unfold flipOp
  simp [hcanon, hrel]

theorem buildFold_eq (fs : List (Fin n × Colour)) (F : VFS n)
    (hrel : F.rel = fun x => x)
    (hcanon : ∀ f ∈ fs, ¬ ((F.endT.ep f.1 : ℕ) < (f.1 : ℕ))) :
    fs.foldl (fun F f => flipOp F f.1 f.2) F =
      { F with endT := applyFlips fs F.endT,
               flips := F.flips ++ annotate F.endT fs } := by
  induction fs generalizing F with
  | nil => simp [applyFlips, annotate]
  | cons f fs ih =>
    rw [List.foldl_cons,
      flipOp_id_relab F f.1 f.2 hrel (hcanon f (List.mem_cons_self f fs))]
    have hside : ∀ g ∈ fs,
        ¬ (((triFlip F.endT f.1 f.2).ep g.1 : ℕ) < (g.1 : ℕ)) := by
      intro g hg
      rw [triFlip_ep]
      exact hcanon g (List.mem_cons_of_mem f hg)
    have hrec := ih ⟨F.startT, triFlip F.endT f.1 f.2,
      F.flips ++ [(f.1, f.2, F.endT.colouring f.1)], F.rel⟩ hrel hside
    rw [hrec]
    simp [applyFlips, annotate, List.append_assoc]

theorem buildSeq_eq (T : Tri n) (fs : List (Fin n × Colour))
    (r : Fin n → Fin n)
    (hcanon : ∀ f ∈ fs, ¬ ((T.ep f.1 : ℕ) < (f.1 : ℕ))) :
    buildSeq T fs r =
      ⟨T, relabelTri r (applyFlips fs T), annotate T fs, r⟩ := by
  unfold buildSeq
  rw [buildFold_eq fs (mkSeq T) rfl hcanon]
  unfold relabelOp mkSeq
  simp

theorem applyFlips_map (fs : List (Fin n × Colour × Colour)) (T : Tri n) :
    applyFlips (fs.map (fun t => (t.1, t.2.1))) T = applyTriples fs T := by
  unfold applyFlips applyTriples
  rw [List.foldl_map]

theorem replayOk_head {T : Tri n} {t : Fin n × Colour × Colour}
    {fs : List (Fin n × Colour × Colour)}
    (h : replayOkB T (t :: fs) = true) :
    stepOkB T t = true ∧ replayOkB (triFlip T t.1 t.2.1) fs = true := by
  unfold replayOkB at h
  exact ⟨(Bool.and_eq_true _ _ |>.mp h).1, (Bool.and_eq_true _ _ |>.mp h).2⟩

theorem stepOk_parts {T : Tri n} {t : Fin n × Colour × Colour}
    (h : stepOkB T t = true) :
    (t.1 : ℕ) ≤ (T.ep t.1 : ℕ) ∧ T.colouring t.1 = t.2.2 ∧
      flipSquareOk T t.1 := by
  unfold stepOkB at h
  rw [Bool.and_eq_true, Bool.and_eq_true] at h
  exact ⟨by simpa using h.1.1, by simpa using h.1.2, by simpa using h.2⟩

theorem replayOk_canon {T : Tri n} {fs : List (Fin n × Colour × Colour)}
    (h : replayOkB T fs = true) :
    ∀ t ∈ fs, ¬ ((T.ep t.1 : ℕ) < (t.1 : ℕ)) := by
  induction fs generalizing T with
  | nil => intro t ht; cases ht
  | cons u fs ih =>
    intro t ht
    obtain ⟨hstep, hrest⟩ := replayOk_head h
    rcases List.mem_cons.mp ht with rfl | ht
    · exact Nat.not_lt.mpr (stepOk_parts hstep).1
    · have := ih hrest t ht
      rwa [triFlip_ep] at this

theorem annotate_map_eq {T : Tri n} {fs : List (Fin n × Colour × Colour)}
    (h : replayOkB T fs = true) :
    annotate T (fs.map (fun t => (t.1, t.2.1))) = fs := by
  induction fs generalizing T with
  | nil => rfl
  | cons t fs ih =>
    obtain ⟨hstep, hrest⟩ := replayOk_head h
    obtain ⟨-, hcol, -⟩ := stepOk_parts hstep
    simp only [List.map_cons, annotate, hcol]
    exact congrArg _ (ih hrest)

/-- A well-formed flip sequence passes `_check`. -/
theorem checkB_of_WF {F : VFS n} (h : WF F) : checkB F = true := by
  obtain ⟨htri, hbij, hcomm, hcols, hreplay, hend⟩ := h
  unfold checkB
  rw [decide_eq_true_iff]
  rw [buildSeq_eq _ _ _ (by
    intro f hf
    obtain ⟨t, ht, rfl⟩ := List.mem_map.mp hf
    exact replayOk_canon hreplay t ht)]
  rw [applyFlips_map, annotate_map_eq hreplay, ← hend]

theorem canonE_triFlip (T : Tri n) (e : Fin n) (col : Colour) :
    canonE (triFlip T e col) = canonE T := rfl

theorem canonE_mem (T : Tri n) (x : Fin n) :
    canonE T x = x ∨ canonE T x = T.ep x := by
  unfold canonE
  by_cases h : (x : ℕ) < T.numEdges <;> simp [h]

theorem canonE_rep {T : Tri n}
    (hinv : ∀ y, T.ep (T.ep y) = y)
    (hcan : ∀ y : Fin n, (y : ℕ) < T.numEdges ↔ (y : ℕ) ≤ (T.ep y : ℕ))
    (x : Fin n) : (canonE T x : ℕ) ≤ (T.ep (canonE T x) : ℕ) := by
  unfold canonE
  by_cases h : (x : ℕ) < T.numEdges
  · simpa [h] using (hcan x).mp h
  · have hx : ¬ ((x : ℕ) ≤ (T.ep x : ℕ)) := fun hc => h ((hcan x).mpr hc)
    simp only [h, if_false]
    rw [hinv]
    omega

theorem canonE_lt {T : Tri n}
    (hinv : ∀ y, T.ep (T.ep y) = y)
    (hcan : ∀ y : Fin n, (y : ℕ) < T.numEdges ↔ (y : ℕ) ≤ (T.ep y : ℕ))
    (x : Fin n) : ((canonE T x : ℕ) < T.numEdges) :=
  (hcan _).mpr (canonE_rep hinv hcan x)

theorem canonE_of_rep {T : Tri n}
    (hcan : ∀ y : Fin n, (y : ℕ) < T.numEdges ↔ (y : ℕ) ≤ (T.ep y : ℕ))
    {x : Fin n} (hx : (x : ℕ) ≤ (T.ep x : ℕ)) : canonE T x = x := by
  unfold canonE
  simp [(hcan x).mpr hx]

/-- The min-based normalisation used by `flip` agrees with the
`num_edges`-based one on a canonical-form involution. -/
theorem canonMin_eq_canonE {T : Tri n}
    (hinv : ∀ y, T.ep (T.ep y) = y)
    (hcan : ∀ y : Fin n, (y : ℕ) < T.numEdges ↔ (y : ℕ) ≤ (T.ep y : ℕ))
    (x : Fin n) :
    (if (T.ep x : ℕ) < (x : ℕ) then T.ep x else x) = canonE T x := by
  unfold canonE
  by_cases h : (T.ep x : ℕ) < (x : ℕ)
  · have : ¬ ((x : ℕ) < T.numEdges) := fun hc => by
      have := (hcan x).mp hc
      omega
    simp [h, this]
  · have : (x : ℕ) < T.numEdges := (hcan x).mpr (by omega)
    simp [h, this]

/-- The end of a well-formed sequence has the same edge involution as its
start. -/
theorem epEq_of_WF {F : VFS n} (h : WF F) : F.endT.ep = F.startT.ep := by
  obtain ⟨⟨hinv, hcan, hcoh, hrb⟩, hbij, hcomm, hcols, hreplay, hend⟩ := h
  rw [hend, relabelTri_ep_comm hbij (by
    intro x
    rw [applyTriples_ep]
    exact hcomm x), applyTriples_ep]

theorem replayOkB_append (fs gs : List (Fin n × Colour × Colour))
    (T : Tri n) :
    replayOkB T (fs ++ gs) =
      (replayOkB T fs && replayOkB (applyTriples fs T) gs) := by
  induction fs generalizing T with
  | nil => simp [replayOkB, applyTriples]
  | cons t fs ih =>
    simp only [List.cons_append, replayOkB, List.append_eq, ih,
      applyTriples_cons, Bool.and_assoc]

theorem relabelTri_inv_cancel {p : Fin n → Fin n}
    (hp : Function.Bijective p) (X : Tri n) :
    relabelTri (permInv p) (relabelTri p X) = X := by
  rw [relabelTri_comp (permInv_bijective hp) hp]
  have : (fun x => permInv p (p x)) = fun x : Fin n => x := by
    funext x
    exact permInv_leftInverse hp x
  rw [this, relabelTri_id]

/-- The heart of composition: flipping the pullback
`canonE (p⁻¹ e)` below a relabelling `p` is the same as flipping `e` above
it. -/
theorem relabel_flip_step {p : Fin n → Fin n} (hp : Function.Bijective p)
    {X : Tri n} (hcomm : ∀ y, p (X.ep y) = X.ep (p y))
    (hinv : ∀ y, X.ep (X.ep y) = y) {e : Fin n} {col : Colour}
    (hok : flipSquareOk (relabelTri p X) e) :
    relabelTri p (triFlip X (canonE X (permInv p e)) col) =
      triFlip (relabelTri p X) e col := by
  rw [relabelTri_triFlip hp]
  have hepT : (relabelTri p X).ep = X.ep := relabelTri_ep_comm hp hcomm
  rcases canonE_mem X (permInv p e) with hc | hc
  · rw [hc, permInv_rightInverse hp.2]
  · rw [hc, hcomm, permInv_rightInverse hp.2]
    have h1 : (relabelTri p X).ep e = X.ep e := by rw [hepT]
    rw [← h1]
    refine triFlip_ep_symm _ e col ?_ hok
    rw [hepT]
    exact hinv e

/-- Pulling a valid replay back through a relabelling: replaying the
translated log below `p` and then relabelling equals replaying the original
log above `p`. -/
theorem relPush {p : Fin n → Fin n} (hp : Function.Bijective p)
    (X : Tri n) (hcomm : ∀ y, p (X.ep y) = X.ep (p y))
    (hinv : ∀ y, X.ep (X.ep y) = y)
    (fs : List (Fin n × Colour × Colour))
    (hreplay : replayOkB (relabelTri p X) fs = true) :
    applyTriples fs (relabelTri p X) =
      relabelTri p (applyTriples (fs.map (fun t =>
        (canonE X (permInv p t.1), t.2.1, t.2.2))) X) := by
  induction fs generalizing X with
  | nil => rfl
  | cons t fs ih =>
    obtain ⟨hstep, hrest⟩ := replayOk_head hreplay
    obtain ⟨-, -, hok⟩ := stepOk_parts hstep
    have hstepeq := @relabel_flip_step _ p hp X hcomm hinv t.1 t.2.1 hok
    rw [List.map_cons, applyTriples_cons, applyTriples_cons]
    have hrest' : replayOkB
        (relabelTri p (triFlip X (canonE X (permInv p t.1)) t.2.1)) fs
        = true := by
      rw [hstepeq]
      exact hrest
    have := ih (triFlip X (canonE X (permInv p t.1)) t.2.1)
      (by intro y; exact hcomm y) (by intro y; exact hinv y) hrest'
    rw [hstepeq] at this
    exact this

theorem canonE_applyTriples (fs : List (Fin n × Colour × Colour))
    (T : Tri n) : canonE (applyTriples fs T) = canonE T := by
  funext x
  unfold canonE Tri.numEdges
  rw [applyTriples_ep]

/-- Pulling a valid replay back through a relabelling keeps it valid. -/
theorem replayOk_pullback {p : Fin n → Fin n} (hp : Function.Bijective p)
    (X : Tri n) (hcomm : ∀ y, p (X.ep y) = X.ep (p y)) (hX : TriWF X)
    (fs : List (Fin n × Colour × Colour))
    (hreplay : replayOkB (relabelTri p X) fs = true)
    (hcols : ∀ t ∈ fs, t.2.1 = Colour.RED ∨ t.2.1 = Colour.BLUE) :
    replayOkB X (fs.map (fun t =>
      (canonE X (permInv p t.1), t.2.1, t.2.2))) = true := by
  induction fs generalizing X with
  | nil => rfl
  | cons t fs ih =>
    obtain ⟨hinv, hcan, hcoh, hrb⟩ := hX
    obtain ⟨hstep, hrest⟩ := replayOk_head hreplay
    obtain ⟨-, hcolstep, hok⟩ := stepOk_parts hstep
    have hokX : flipSquareOk X (permInv p t.1) := by
      have := flipSquareOk_relabel (permInv_bijective hp) hok
      rwa [relabelTri_inv_cancel hp] at this
    have hokXc : flipSquareOk X (canonE X (permInv p t.1)) := by
      rcases canonE_mem X (permInv p t.1) with hc | hc
      · rwa [hc]
      · rw [hc]
        exact flipSquareOk_ep (hinv _) hokX
    rw [List.map_cons, replayOkB, Bool.and_eq_true]
    constructor
    · unfold stepOkB
      rw [Bool.and_eq_true, Bool.and_eq_true]
      refine ⟨⟨?_, ?_⟩, ?_⟩
      · simpa using canonE_rep hinv hcan (permInv p t.1)
      · rw [decide_eq_true_iff]
        have hXc : X.colouring (permInv p t.1) = t.2.2 := hcolstep
        rcases canonE_mem X (permInv p t.1) with hc | hc
        · rw [hc, hXc]
        · rw [hc, hcoh, hXc]
      · rw [decide_eq_true_iff]
        exact hokXc
    · have hstepeq := @relabel_flip_step _ p hp X hcomm hinv t.1 t.2.1 hok
      have hrest' : replayOkB
          (relabelTri p (triFlip X (canonE X (permInv p t.1)) t.2.1)) fs
          = true := by
        rw [hstepeq]
        exact hrest
      have hXnew : TriWF (triFlip X (canonE X (permInv p t.1)) t.2.1) :=
        TriWF_triFlip ⟨hinv, hcan, hcoh, hrb⟩
          (hcols t (List.mem_cons_self t fs))
      have := ih (triFlip X (canonE X (permInv p t.1)) t.2.1)
        (by intro y; exact hcomm y) hXnew hrest'
        (fun u hu => hcols u (List.mem_cons_of_mem t hu))
      rwa [canonE_triFlip] at this


/-- Composability plus well-formedness makes the composite state
well-formed. -/
theorem WF_imulRes {F G : VFS n} (hF : WF F) (hG : WF G)
    (hcomp : F.endT = G.startT) : WF (imulRes F G) := by
  obtain ⟨hFtri, hFbij, hFcomm, hFcols, hFreplay, hFend⟩ := id hF
  obtain ⟨hGtri, hGbij, hGcomm, hGcols, hGreplay, hGend⟩ := id hG
  have hepFG : G.startT.ep = F.startT.ep := by
    rw [← hcomp]
    exact epEq_of_WF hF
  have hGcomm' : ∀ y, G.rel (F.startT.ep y) = F.startT.ep (G.rel y) := by
    intro y
    rw [← hepFG]
    exact hGcomm y
  have hAcomm : ∀ y, F.rel ((applyTriples F.flips F.startT).ep y) =
      (applyTriples F.flips F.startT).ep (F.rel y) := by
    intro y
    rw [applyTriples_ep]
    exact hFcomm y
  have hAtri : TriWF (applyTriples F.flips F.startT) := by
    refine TriWF_applyTriples hFtri hFcols
  have hApull : relabelTri F.rel (applyTriples F.flips F.startT)
      = G.startT := by
    rw [← hFend, hcomp]
  have hGpull : replayOkB
      (relabelTri F.rel (applyTriples F.flips F.startT)) G.flips
      = true := by
    rw [hApull]
    exact hGreplay
  refine ⟨hFtri, ?_, ?_, ?_, ?_, ?_⟩
  · exact hGbij.comp hFbij
  · intro x
    show G.rel (F.rel (F.startT.ep x)) = F.startT.ep (G.rel (F.rel x))
    rw [hFcomm x, hGcomm' (F.rel x)]
  · intro t ht
    rcases List.mem_append.mp ht with h | h
    · exact hFcols t h
    · obtain ⟨u, hu, rfl⟩ := List.mem_map.mp h
      exact hGcols u hu
  · show replayOkB F.startT (F.flips ++ G.flips.map (pullback F)) = true
    rw [replayOkB_append, Bool.and_eq_true]
    refine ⟨hFreplay, ?_⟩
    have := replayOk_pullback hFbij (applyTriples F.flips F.startT) hAcomm
      hAtri G.flips hGpull hGcols
    rw [canonE_applyTriples] at this
    exact this
  · show G.endT = relabelTri (fun i => G.rel (F.rel i))
      (applyTriples (F.flips ++ G.flips.map (pullback F)) F.startT)
    rw [applyTriples_append]
    rw [← relabelTri_comp hGbij hFbij]
    have hpush := relPush hFbij (applyTriples F.flips F.startT) hAcomm
      (fun y => by
        rw [applyTriples_ep]
        exact hFtri.1 y) G.flips hGpull
    rw [canonE_applyTriples] at hpush
    rw [hApull] at hpush
    have hpush' : applyTriples G.flips G.startT =
        relabelTri F.rel (applyTriples (G.flips.map (pullback F))
          (applyTriples F.flips F.startT)) := hpush
    show G.endT = relabelTri G.rel (relabelTri F.rel
      (applyTriples (G.flips.map (pullback F))
        (applyTriples F.flips F.startT)))
    rw [← hpush', hGend]

/-- `__imul__` succeeds on composable well-formed sequences and returns the
composite state. -/
theorem imulE_ok {F G : VFS n} (hF : WF F) (hG : WF G)
    (hcomp : F.endT = G.startT) :
    imulE F G = .ok (imulRes F G) := by
  unfold imulE
  rw [if_neg (by simp [hcomp]), if_pos (checkB_of_WF (WF_imulRes hF hG hcomp))]

theorem canonE_ep {T : Tri n} (hinv : ∀ y, T.ep (T.ep y) = y)
    (hcan : ∀ y : Fin n, (y : ℕ) < T.numEdges ↔ (y : ℕ) ≤ (T.ep y : ℕ))
    (x : Fin n) : canonE T (T.ep x) = canonE T x := by
  unfold canonE
  by_cases h : (x : ℕ) < T.numEdges
  · have hx : (x : ℕ) ≤ (T.ep x : ℕ) := (hcan x).mp h
    by_cases h2 : (T.ep x : ℕ) < T.numEdges
    · have hx2 : (T.ep x : ℕ) ≤ (T.ep (T.ep x) : ℕ) := (hcan _).mp h2
      rw [hinv] at hx2
      have : T.ep x = x := Fin.ext (le_antisymm hx2 hx)
      simp [h, h2, this]
    · simp [h, h2, hinv x]
  · have h2 : ((T.ep x : ℕ)) < T.numEdges := (hcan _).mpr (by
      rw [hinv]
      have : ¬ ((x : ℕ) ≤ (T.ep x : ℕ)) := fun hc => h ((hcan x).mpr hc)
      omega)
    simp [h, h2]

theorem permInv_comm_ep {p : Fin n → Fin n} (hp : Function.Bijective p)
    {ep : Fin n → Fin n} (hcomm : ∀ y, p (ep y) = ep (p y)) :
    ∀ y, permInv p (ep y) = ep (permInv p y) := by
  intro y
  obtain ⟨z, rfl⟩ := hp.2 y
  rw [← hcomm, permInv_leftInverse hp, permInv_leftInverse hp]

theorem canonE_absorb {T : Tri n} (hinv : ∀ y, T.ep (T.ep y) = y)
    (hcan : ∀ y : Fin n, (y : ℕ) < T.numEdges ↔ (y : ℕ) ≤ (T.ep y : ℕ))
    {f : Fin n → Fin n} (hfep : ∀ y, f (T.ep y) = T.ep (f y)) (x : Fin n) :
    canonE T (f (canonE T x)) = canonE T (f x) := by
  rcases canonE_mem T x with h | h
  · rw [h]
  · rw [h, hfep, canonE_ep hinv hcan]

theorem canonE_congr {T T' : Tri n} (h : T.ep = T'.ep) :
    canonE T = canonE T' := by
  funext x
  unfold canonE Tri.numEdges
  rw [h]

/-- The composite pullback of `(F*G)` agrees with pulling back through `G`
then through `F`. -/
theorem pullback_imulRes {F G : VFS n} (hF : WF F) (hG : WF G)
    (hep : G.startT.ep = F.startT.ep) (t : Fin n × Colour × Colour) :
    pullback (imulRes F G) t = pullback F (pullback G t) := by
  obtain ⟨⟨hinv, hcan, -, -⟩, hFbij, hFcomm, -, -, -⟩ := id hF
  obtain ⟨-, hGbij, -, -, -, -⟩ := id hG
  unfold pullback imulRes
  simp only
  congr 1
  rw [permInv_comp hFbij hGbij, ← @canonE_congr _ G.startT F.startT hep,
    @canonE_congr _ G.startT F.startT hep,
    canonE_absorb hinv hcan (permInv_comm_ep hFbij hFcomm)]

/-- Structural associativity of the composite state. -/
theorem imulRes_assoc {F G H : VFS n} (hF : WF F) (hG : WF G)
    (h1 : F.endT = G.startT) :
    imulRes (imulRes F G) H = imulRes F (imulRes G H) := by
  have hep : G.startT.ep = F.startT.ep := by
    rw [← h1]
    exact epEq_of_WF hF
  show VFS.mk F.startT H.endT
      ((F.flips ++ G.flips.map (pullback F)) ++
        H.flips.map (pullback (imulRes F G)))
      (fun i => H.rel (G.rel (F.rel i))) =
    VFS.mk F.startT H.endT
      (F.flips ++ (G.flips ++ H.flips.map (pullback G)).map (pullback F))
      (fun i => H.rel (G.rel (F.rel i)))
  rw [VFS.mk.injEq]
  refine ⟨rfl, rfl, ?_, rfl⟩
  rw [List.map_append, List.map_map, List.append_assoc]
  congr 1
  congr 1
  exact List.map_congr_left (fun t _ => pullback_imulRes hF hG hep t)

/-- `(F*G)*H == F*(G*H)`: both composites are defined and produce
identical states. -/
theorem mul_assoc_ok {F G H : VFS n} (hF : WF F) (hG : WF G) (hH : WF H)
    (h1 : F.endT = G.startT) (h2 : G.endT = H.startT) :
    mulE F G = .ok (imulRes F G) ∧ mulE G H = .ok (imulRes G H) ∧
    mulE (imulRes F G) H = .ok (imulRes (imulRes F G) H) ∧
    mulE F (imulRes G H) = .ok (imulRes (imulRes F G) H) := by
  refine ⟨imulE_ok hF hG h1, imulE_ok hG hH h2, imulE_ok
    (WF_imulRes hF hG h1) hH h2, ?_⟩
  have h3 : F.endT = (imulRes G H).startT := h1
  rw [mulE, imulE_ok hF (WF_imulRes hG hH h2) h3]
  rw [imulRes_assoc hF hG h1]

/-! ## The replication loop of `__pow__` -/

theorem powLoop_add (pb : α → α) (m a b : ℕ) (res : List α) :
    powLoop pb m (a + b) res = powLoop pb m b (powLoop pb m a res) := by
  induction a generalizing res with
  | zero => rw [Nat.zero_add]; rfl
  | succ a ih =>
    rw [Nat.succ_add]
    rcases h : res.get? (res.length - m) with - | t <;>
      simp only [powLoop, h, ih]

theorem powLoop_todo (pb : α → α) (m : ℕ) (todo : List α) :
    ∀ (pre out : List α), todo.length + out.length = m →
    powLoop pb m todo.length (pre ++ todo ++ out) =
      pre ++ todo ++ out ++ todo.map pb := by
  induction todo with
  | nil => intro pre out hm; simp [powLoop]
  | cons t0 tl ih =>
    intro pre out hm
    have hlen : (pre ++ (t0 :: tl) ++ out).length - m = pre.length := by
      simp only [List.length_append, List.length_cons] at *
      omega
    have hget : (pre ++ (t0 :: tl) ++ out).get? pre.length = some t0 := by
      rw [List.append_assoc, List.get?_append_right (le_refl pre.length)]
      simp
    show powLoop pb m (tl.length + 1) (pre ++ (t0 :: tl) ++ out) = _
    rw [show tl.length + 1 = 1 + tl.length by omega, powLoop_add]
    have hstep : powLoop pb m 1 (pre ++ (t0 :: tl) ++ out) =
        pre ++ (t0 :: tl) ++ out ++ [pb t0] := by
      unfold powLoop
      rw [hlen, hget]
      rfl
    rw [hstep]
    have hre : pre ++ (t0 :: tl) ++ out ++ [pb t0] =
        (pre ++ [t0]) ++ tl ++ (out ++ [pb t0]) := by
      simp [List.append_assoc]
    rw [hre, ih (pre ++ [t0]) (out ++ [pb t0]) (by
      simp only [List.length_append, List.length_cons, List.length_nil]
        at hm ⊢
      omega)]
    simp [List.append_assoc]

theorem powLoop_block (pb : α → α) (m : ℕ) (pre xs : List α)
    (hm : xs.length = m) :
    powLoop pb m m (pre ++ xs) = pre ++ xs ++ xs.map pb := by
  have := powLoop_todo pb m xs pre [] (by simpa using hm)
  simpa [hm] using this

/-- The log of `F ** (k+1)`: `k+1` blocks, the `j`-th being the original
log pulled back `j` times. -/
def repBlocks (pb : α → α) (fl : List α) : ℕ → List α
  | 0 => []
  | k + 1 => repBlocks pb fl k ++ fl.map (fun x => pb^[k] x)

theorem powLoop_repBlocks (pb : α → α) (fl : List α) (k : ℕ) :
    powLoop pb fl.length (fl.length * k) fl = repBlocks pb fl (k + 1) := by
  induction k with
  | zero =>
    show powLoop pb fl.length 0 fl = _
    simp [powLoop, repBlocks]
  | succ k ih =>
    rw [Nat.mul_succ, powLoop_add, ih]
    have hrep : repBlocks pb fl (k + 1) =
        repBlocks pb fl k ++ fl.map (fun x => pb^[k] x) := rfl
    rw [hrep, powLoop_block pb fl.length _ (fl.map (fun x => pb^[k] x))
      (by simp)]
    show _ = repBlocks pb fl (k + 1) ++ fl.map (fun x => pb^[k+1] x)
    rw [hrep, List.map_map]
    congr 1
    exact List.map_congr_left (fun x _ =>
      (Function.iterate_succ_apply' pb k x).symm)

/-- `F ** 2` builds exactly the state of `F * F`. -/
theorem powRes_two (F : VFS n) : powRes F 2 = imulRes F F := by
  unfold powRes imulRes
  rw [VFS.mk.injEq]
  refine ⟨rfl, rfl, ?_, ?_⟩
  · show powLoop (pullback F) F.flips.length (F.flips.length * 1)
      F.flips = _
    rw [powLoop_repBlocks]
    show ([] ++ F.flips.map (fun x => (pullback F)^[0] x)) ++
      F.flips.map (fun x => (pullback F)^[1] x) = _
    simp
  · funext i
    show F.rel^[2] i = F.rel (F.rel i)
    rw [Function.iterate_succ_apply', Function.iterate_one]

theorem iterate_comm_ep {p ep : Fin n → Fin n}
    (hcomm : ∀ y, p (ep y) = ep (p y)) (k : ℕ) :
    ∀ y, p^[k] (ep y) = ep (p^[k] y) := by
  induction k with
  | zero => intro y; rfl
  | succ k ih =>
    intro y
    rw [Function.iterate_succ_apply', Function.iterate_succ_apply', ih,
      hcomm]

/-- The edge pullback through `rel^[k+1]` agrees with iterating the
normalised single pullback. -/
theorem canonE_permInv_iterate {F : VFS n} (hF : WF F) (k : ℕ)
    (e : Fin n) :
    canonE F.startT (permInv (F.rel^[k + 1]) e) =
      (fun x => canonE F.startT (permInv F.rel x))^[k + 1] e := by
  obtain ⟨⟨hinv, hcan, -, -⟩, hbij, hcomm, -, -, -⟩ := id hF
  induction k with
  | zero => rfl
  | succ k ih =>
    have hbijk : Function.Bijective (F.rel^[k + 1]) :=
      Function.Bijective.iterate hbij (k + 1)
    have hsplit : permInv (F.rel^[k + 2]) e =
        permInv F.rel (permInv (F.rel^[k + 1]) e) := by
      have : F.rel^[k + 2] = fun x => F.rel^[k + 1] (F.rel x) := by
        funext x
        exact Function.iterate_succ_apply F.rel (k + 1) x
      rw [this]
      exact permInv_comp hbij hbijk e
    rw [hsplit, Function.iterate_succ_apply']
    rw [← ih]
    exact (canonE_absorb hinv hcan (permInv_comm_ep hbij hcomm) _).symm

theorem pullback_iterate_snd (F : VFS n) (k : ℕ)
    (t : Fin n × Colour × Colour) :
    (pullback F)^[k] t =
      ((fun x => canonE F.startT (permInv F.rel x))^[k] t.1, t.2.1,
        t.2.2) := by
  induction k generalizing t with
  | zero => rfl
  | succ k ih =>
    rw [Function.iterate_succ_apply, Function.iterate_succ_apply, ih]
    rfl

/-- For `k ≥ 1`, the pullback of `F ** k` is the `k`-fold pullback of
`F`. -/
theorem pullback_powRes {F : VFS n} (hF : WF F) (k : ℕ)
    (t : Fin n × Colour × Colour) :
    pullback (powRes F (k + 1)) t = (pullback F)^[k + 1] t := by
  rw [pullback_iterate_snd]
  unfold pullback powRes
  simp only
  rw [canonE_permInv_iterate hF k]

/-- For `k ≥ 2`, `F ** (k+1)` builds the state of `(F ** k) * F`. -/
theorem powRes_succ {F : VFS n} (hF : WF F) (k : ℕ) :
    powRes F (k + 2 + 1) = imulRes (powRes F (k + 2)) F := by
  unfold powRes imulRes
  rw [VFS.mk.injEq]
  refine ⟨rfl, rfl, ?_, ?_⟩
  · show powLoop (pullback F) F.flips.length
      (F.flips.length * (k + 2)) F.flips =
      powLoop (pullback F) F.flips.length (F.flips.length * (k + 1))
        F.flips ++ F.flips.map (pullback (powRes F (k + 2)))
    rw [powLoop_repBlocks, powLoop_repBlocks]
    show repBlocks (pullback F) F.flips (k + 2) ++
      F.flips.map (fun x => (pullback F)^[k + 2] x) = _
    congr 1
    exact List.map_congr_left (fun t _ =>
      ((pullback_powRes hF (k + 1) t).symm))
  · funext i
    show F.rel^[k + 3] i = F.rel (F.rel^[k + 2] i)
    rw [Function.iterate_succ_apply']

/-- Powers of a closed well-formed sequence are well-formed (for
exponents at least 2; smaller ones do not build a new state). -/
theorem WF_powRes {F : VFS n} (hF : WF F) (hclosed : F.endT = F.startT)
    (k : ℕ) : WF (powRes F (k + 2)) := by
  induction k with
  | zero =>
    rw [powRes_two]
    exact WF_imulRes hF hF hclosed
  | succ k ih =>
    rw [powRes_succ hF k]
    exact WF_imulRes ih hF hclosed

theorem powE_ok_big {F : VFS n} (hF : WF F) (hclosed : F.endT = F.startT)
    (k : ℕ) : powE F (k + 2) = .ok (powRes F (k + 2)) := by
  unfold powE
  rw [if_neg (by simp [hclosed]), if_neg (by omega), if_neg (by omega),
    if_pos (checkB_of_WF (WF_powRes hF hclosed k))]

/-! ## The worklist closure of `unflipped_edges` -/

/-- The spec-side reachability: an edge reachable from some edge of the
flip log by repeated application of the relabelling, each image normalised
to its edge representative. -/
def Reaches (F : VFS n) (e : Fin n) : Prop :=
  ∃ s ∈ F.flips.map (fun t => t.1), ∃ k : ℕ, (unflipStep F)^[k] s = e

theorem pass_fold_spec (F : VFS n) (l : List (Fin n)) :
    ∀ acc : Finset (Fin n) × List (Fin n),
    (acc.1 ⊆ (l.foldl (unflipPass F) acc).1) ∧
    (∀ x ∈ (l.foldl (unflipPass F) acc).1,
      x ∈ acc.1 ∨ ∃ e ∈ l, unflipStep F e = x) ∧
    (∀ e ∈ l, unflipStep F e ∈ (l.foldl (unflipPass F) acc).1) ∧
    (∀ x ∈ (l.foldl (unflipPass F) acc).2,
      x ∈ acc.2 ∨ x ∈ (l.foldl (unflipPass F) acc).1) ∧
    (∀ x ∈ acc.2, x ∈ (l.foldl (unflipPass F) acc).2) ∧
    (∀ x ∈ (l.foldl (unflipPass F) acc).1,
      x ∈ acc.1 ∨ x ∈ (l.foldl (unflipPass F) acc).2) ∧
    (acc.1.card + (l.foldl (unflipPass F) acc).2.length =
      (l.foldl (unflipPass F) acc).1.card + acc.2.length) := by
  induction l with
  | nil =>
    intro acc
    exact ⟨fun x hx => hx, fun x hx => Or.inl hx, fun e he => absurd he
      (List.not_mem_nil e), fun x hx => Or.inl hx, fun x hx => hx,
      fun x hx => Or.inl hx, rfl⟩
  | cons e l ih =>
    intro acc
    rw [List.foldl_cons]
    obtain ⟨c1, c2, c3, c4, c5, c6, c7⟩ := ih (unflipPass F acc e)
    by_cases hmem : unflipStep F e ∈ acc.1
    · have hpass : unflipPass F acc e = acc := by
        unfold unflipPass
        simp [hmem]
      rw [hpass]
      rw [hpass] at c1 c2 c3 c4 c5 c6 c7
      refine ⟨c1, ?_, ?_, c4, c5, c6, c7⟩
      · intro x hx
        rcases c2 x hx with h | ⟨u, hu, hux⟩
        · exact Or.inl h
        · exact Or.inr ⟨u, List.mem_cons_of_mem e hu, hux⟩
      · intro u hu
        rcases List.mem_cons.mp hu with rfl | hu
        · exact c1 hmem
        · exact c3 u hu
    · have hpass : unflipPass F acc e =
          (insert (unflipStep F e) acc.1, acc.2 ++ [unflipStep F e]) := by
        unfold unflipPass
        simp [hmem]
      rw [hpass]
      rw [hpass] at c1 c2 c3 c4 c5 c6 c7
      refine ⟨?_, ?_, ?_, ?_, ?_, ?_, ?_⟩
      · exact fun x hx => c1 (Finset.mem_insert_of_mem hx)
      · intro x hx
        rcases c2 x hx with h | ⟨u, hu, hux⟩
        · rcases Finset.mem_insert.mp h with rfl | h
          · exact Or.inr ⟨e, List.mem_cons_self e l, rfl⟩
          · exact Or.inl h
        · exact Or.inr ⟨u, List.mem_cons_of_mem e hu, hux⟩
      · intro u hu
        rcases List.mem_cons.mp hu with rfl | hu
        · exact c1 (Finset.mem_insert_self _ _)
        · exact c3 u hu
      · intro x hx
        rcases c4 x hx with h | h
        · rcases List.mem_append.mp h with h | h
          · exact Or.inl h
          · rcases List.mem_singleton.mp h with rfl
            exact Or.inr (c1 (Finset.mem_insert_self _ _))
        · exact Or.inr h
      · intro x hx
        exact c5 x (List.mem_append_left _ hx)
      · intro x hx
        rcases c6 x hx with h | h
        · rcases Finset.mem_insert.mp h with rfl | h
          · exact Or.inr (c5 _ (List.mem_append_right _
              (List.mem_singleton_self _)))
          · exact Or.inl h
        · exact Or.inr h
      · have hcard : (insert (unflipStep F e) acc.1).card =
            acc.1.card + 1 := Finset.card_insert_of_not_mem hmem
        rw [hcard] at c7
        simp only [List.length_append, List.length_cons,
          List.length_nil] at c7 ⊢
        omega

/-- Everything produced by the worklist loop satisfies any property that
holds on the initial set and is closed under the propagation step. -/
theorem unflipLoop_sound (F : VFS n) (P : Fin n → Prop)
    (hstep : ∀ x, P x → P (unflipStep F x)) :
    ∀ (fuel : ℕ) (flipped : Finset (Fin n)) (new : List (Fin n)),
    (∀ x ∈ flipped, P x) → (∀ x ∈ new, x ∈ flipped) →
    ∀ x ∈ unflipLoop F fuel flipped new, P x := by
  intro fuel
  induction fuel with
  | zero => intro flipped new hflip hnew x hx; exact hflip x hx
  | succ fuel ih =>
    intro flipped new hflip hnew x hx
    rw [unflipLoop] at hx
    by_cases hcard : flipped.card < F.startT.numEdges
    · rw [if_pos hcard] at hx
      obtain ⟨c1, c2, c3, c4, c5, c6, c7⟩ :=
        pass_fold_spec F new (flipped, [])
      by_cases hempty : (new.foldl (unflipPass F) (flipped, [])).2.isEmpty
      · rw [if_pos hempty] at hx
        exact hflip x hx
      · rw [if_neg hempty] at hx
        refine ih _ _ ?_ ?_ x hx
        · intro y hy
          rcases c2 y hy with h | ⟨u, hu, rfl⟩
          · exact hflip y h
          · exact hstep u (hflip u (hnew u hu))
        · intro y hy
          rcases c4 y hy with h | h
          · exact absurd h (List.not_mem_nil y)
          · exact h
    · rw [if_neg hcard] at hx
      exact hflip x hx

/-- With enough fuel the worklist loop reaches a step-closed superset of
the initial set, inside the representatives. -/
theorem unflipLoop_closed (F : VFS n)
    (hsteprep : ∀ x, ((unflipStep F x : ℕ) < F.startT.numEdges))
    (hcardrep : (Finset.univ.filter
      (fun e : Fin n => (e : ℕ) < F.startT.numEdges)).card =
        F.startT.numEdges) :
    ∀ (fuel : ℕ) (flipped : Finset (Fin n)) (new : List (Fin n)),
    (∀ x ∈ flipped, (x : ℕ) < F.startT.numEdges) →
    (∀ x ∈ flipped, unflipStep F x ∈ flipped ∨ x ∈ new) →
    (∀ x ∈ new, x ∈ flipped) →
    F.startT.numEdges + 1 - flipped.card ≤ fuel →
    flipped ⊆ unflipLoop F fuel flipped new ∧
    (∀ x ∈ unflipLoop F fuel flipped new,
      unflipStep F x ∈ unflipLoop F fuel flipped new) := by
  intro fuel
  induction fuel with
  | zero =>
    intro flipped new hrep hfront hnew hfuel
    exfalso
    have hsub : flipped ⊆ Finset.univ.filter
        (fun e : Fin n => (e : ℕ) < F.startT.numEdges) := by
      intro x hx
      rw [Finset.mem_filter]
      exact ⟨Finset.mem_univ x, hrep x hx⟩
    have := Finset.card_le_card hsub
    rw [hcardrep] at this
    omega
  | succ fuel ih =>
    intro flipped new hrep hfront hnew hfuel
    rw [unflipLoop]
    by_cases hcard : flipped.card < F.startT.numEdges
    · rw [if_pos hcard]
      obtain ⟨c1, c2, c3, c4, c5, c6, c7⟩ :=
        pass_fold_spec F new (flipped, [])
      by_cases hempty : (new.foldl (unflipPass F) (flipped, [])).2.isEmpty
      · rw [if_pos hempty]
        refine ⟨fun x hx => hx, ?_⟩
        intro x hx
        rcases hfront x hx with h | h
        · exact h
        · -- the pass appended nothing, so the set was unchanged and every
          -- propagated image was already present
          have hlen : (new.foldl (unflipPass F) (flipped, [])).2 = [] :=
            List.isEmpty_iff.mp hempty

          have hc7 : flipped.card =
              (new.foldl (unflipPass F) (flipped, [])).1.card := by
            have := c7
            rw [hlen] at this
            simpa using this
          have heq : (new.foldl (unflipPass F) (flipped, [])).1 =
              flipped :=
            (Finset.eq_of_subset_of_card_le c1 (le_of_eq hc7.symm)).symm
          have := c3 x h
          rwa [heq] at this
      · rw [if_neg hempty]
        have hlen1 : 1 ≤ (new.foldl (unflipPass F) (flipped, [])).2.length
          := by
          rcases hl : (new.foldl (unflipPass F) (flipped, [])).2 with - | ⟨y, ys⟩
          · rw [hl] at hempty
            simp at hempty
          · simp [hl]
        have hcard1 : flipped.card + 1 ≤
            (new.foldl (unflipPass F) (flipped, [])).1.card := by
          have := c7
          simp only [List.length_nil] at this
          omega
        obtain ⟨ih1, ih2⟩ := ih
          (new.foldl (unflipPass F) (flipped, [])).1
          (new.foldl (unflipPass F) (flipped, [])).2
          (by
            intro x hx
            rcases c2 x hx with h | ⟨u, hu, rfl⟩
            · exact hrep x h
            · exact hsteprep u)
          (by
            intro x hx
            rcases c2 x hx with h | ⟨u, hu, rfl⟩
            · rcases hfront x h with h2 | h2
              · exact Or.inl (c1 h2)
              · exact Or.inl (c3 x h2)
            · rcases c6 _ hx with h2 | h2
              · rcases hfront _ h2 with h3 | h3
                · exact Or.inl (c1 h3)
                · exact Or.inl (c3 _ h3)
              · exact Or.inr h2)
          (by
            intro x hx
            rcases c4 x hx with h | h
            · exact absurd h (List.not_mem_nil x)
            · exact h)
          (by omega)
        exact ⟨fun x hx => ih1 (c1 hx), ih2⟩
    · rw [if_neg hcard]
      have hsub : flipped ⊆ Finset.univ.filter
          (fun e : Fin n => (e : ℕ) < F.startT.numEdges) := by
        intro x hx
        rw [Finset.mem_filter]
        exact ⟨Finset.mem_univ x, hrep x hx⟩
      have heq : flipped = Finset.univ.filter
          (fun e : Fin n => (e : ℕ) < F.startT.numEdges) := by
        refine Finset.eq_of_subset_of_card_le hsub ?_
        rw [hcardrep]
        omega
      refine ⟨fun x hx => hx, ?_⟩
      intro x hx
      rw [heq, Finset.mem_filter]
      exact ⟨Finset.mem_univ _, hsteprep x⟩

theorem card_reps {T : Tri n}
    (hcan : ∀ y : Fin n, (y : ℕ) < T.numEdges ↔ (y : ℕ) ≤ (T.ep y : ℕ)) :
    (Finset.univ.filter (fun e : Fin n => (e : ℕ) < T.numEdges)).card
      = T.numEdges := by
  have heq : Finset.univ.filter (fun e : Fin n => (e : ℕ) < T.numEdges)
      = Finset.univ.filter (fun e : Fin n => (e : ℕ) ≤ (T.ep e : ℕ)) :=
    Finset.filter_congr (fun x _ => by simp [hcan x])
  rw [heq]
  rfl

theorem unflipStep_eq (F : VFS n) (x : Fin n) :
    unflipStep F x = canonE F.startT (F.rel x) := rfl

theorem Reaches_step {F : VFS n} {x : Fin n} (h : Reaches F x) :
    Reaches F (unflipStep F x) := by
  obtain ⟨s, hs, k, rfl⟩ := h
  exact ⟨s, hs, k + 1, (Function.iterate_succ_apply' _ _ _)⟩

/-- `unflipped_edges` on a closed well-formed sequence returns exactly the
representatives not reachable from the flip log under the relabelling
action. -/
theorem unflippedE_spec {F : VFS n} (hF : WF F)
    (hclosed : F.startT = F.endT) :
    ∃ S, unflippedE F = .ok S ∧
      ∀ e : Fin n, e ∈ S ↔
        ((e : ℕ) < F.startT.numEdges ∧ ¬ Reaches F e) := by
  obtain ⟨⟨hinv, hcan, hcoh, hrb⟩, hbij, hcomm, hcols, hreplay, hend⟩ :=
    id hF
  have hseedrep : ∀ x : Fin n, x ∈ (F.flips.map (fun t => t.1)).dedup →
      (x : ℕ) < F.startT.numEdges := by
    intro x hx
    obtain ⟨t, ht, rfl⟩ := List.mem_map.mp (List.mem_dedup.mp hx)
    exact (hcan _).mpr (Nat.not_lt.mp (replayOk_canon hreplay t ht))
  have hseedreach : ∀ x ∈ (F.flips.map (fun t => t.1)).dedup,
      Reaches F x := by
    intro x hx
    exact ⟨x, List.mem_dedup.mp hx, 0, rfl⟩
  have hcardrep := @card_reps _ F.startT hcan
  have hsteprep : ∀ x, ((unflipStep F x : ℕ) < F.startT.numEdges) := by
    intro x
    rw [unflipStep_eq]
    exact canonE_lt hinv hcan (F.rel x)
  by_cases hfull : ((F.flips.map (fun t => t.1)).dedup.toFinset.card
      = F.startT.numEdges)
  · have hval : unflippedE F = .ok ∅ := by
      unfold unflippedE
      rw [if_neg (by simp [hclosed])]
      exact if_pos hfull
    refine ⟨∅, hval, ?_⟩
    intro e
    simp only [Finset.not_mem_empty, false_iff]
    rintro ⟨hlt, hnr⟩
    have hsub : (F.flips.map (fun t => t.1)).dedup.toFinset ⊆
        Finset.univ.filter
          (fun e : Fin n => (e : ℕ) < F.startT.numEdges) := by
      intro x hx
      rw [Finset.mem_filter]
      exact ⟨Finset.mem_univ x, hseedrep x (List.mem_toFinset.mp hx)⟩
    have heq := Finset.eq_of_subset_of_card_le hsub (by
      rw [hcardrep, hfull])
    have : e ∈ (F.flips.map (fun t => t.1)).dedup.toFinset := by
      rw [heq, Finset.mem_filter]
      exact ⟨Finset.mem_univ e, hlt⟩
    exact hnr (hseedreach e (List.mem_toFinset.mp this))
  · have hval : unflippedE F = .ok
        ((Finset.univ.filter
          (fun e : Fin n => (e : ℕ) < F.startT.numEdges)) \
          unflipLoop F (n + 1) (F.flips.map (fun t => t.1)).dedup.toFinset
            ((F.flips.map (fun t => t.1)).dedup)) := by
      unfold unflippedE
      rw [if_neg (by simp [hclosed])]
      exact if_neg hfull
    refine ⟨_, hval, ?_⟩
    have hsound := unflipLoop_sound F (Reaches F)
      (fun x hx => Reaches_step hx) (n + 1)
      (F.flips.map (fun t => t.1)).dedup.toFinset
      ((F.flips.map (fun t => t.1)).dedup)
      (fun x hx => hseedreach x (List.mem_toFinset.mp hx))
      (fun x hx => List.mem_toFinset.mpr hx)
    have hfuel : F.startT.numEdges + 1 -
        (F.flips.map (fun t => t.1)).dedup.toFinset.card ≤ n + 1 := by
      have h1 : F.startT.numEdges ≤ n := by
        have := Finset.card_filter_le Finset.univ
          (fun e : Fin n => (e : ℕ) ≤ (F.startT.ep e : ℕ))
        simpa [Tri.numEdges] using this
      omega
    obtain ⟨hRsub, hRclosed⟩ := unflipLoop_closed F hsteprep hcardrep
      (n + 1) (F.flips.map (fun t => t.1)).dedup.toFinset
      ((F.flips.map (fun t => t.1)).dedup)
      (fun x hx => hseedrep x (List.mem_toFinset.mp hx))
      (fun x hx => Or.inr (List.mem_toFinset.mp hx))
      (fun x hx => List.mem_toFinset.mpr hx)
      hfuel
    have hiter : ∀ (k : ℕ) (s : Fin n),
        s ∈ unflipLoop F (n + 1)
          (F.flips.map (fun t => t.1)).dedup.toFinset
          ((F.flips.map (fun t => t.1)).dedup) →
        (unflipStep F)^[k] s ∈ unflipLoop F (n + 1)
          (F.flips.map (fun t => t.1)).dedup.toFinset
          ((F.flips.map (fun t => t.1)).dedup) := by
      intro k
      induction k with
      | zero => intro s hs; exact hs
      | succ k ih =>
        intro s hs
        rw [Function.iterate_succ_apply']
        exact hRclosed _ (ih s hs)
    intro e
    rw [Finset.mem_sdiff, Finset.mem_filter]
    constructor
    · rintro ⟨⟨-, hlt⟩, hnotR⟩
      refine ⟨hlt, fun hr => hnotR ?_⟩
      obtain ⟨s, hs, k, rfl⟩ := hr
      exact hiter k s (hRsub (List.mem_toFinset.mpr
        (List.mem_dedup.mpr hs)))
    · rintro ⟨hlt, hnr⟩
      exact ⟨⟨Finset.mem_univ e, hlt⟩, fun hR => hnr (hsound e hR)⟩

theorem mem_repBlocks {pb : α → α} {fl : List α} {k : ℕ} {x : α} :
    x ∈ repBlocks pb fl k ↔ ∃ j < k, ∃ t ∈ fl, pb^[j] t = x := by
  induction k with
  | zero => simp [repBlocks]
  | succ k ih =>
    show x ∈ repBlocks pb fl k ++ fl.map (fun y => pb^[k] y) ↔ _
    rw [List.mem_append, ih]
    constructor
    · rintro (⟨j, hj, t, ht, rfl⟩ | h)
      · exact ⟨j, Nat.lt_succ_of_lt hj, t, ht, rfl⟩
      · obtain ⟨t, ht, rfl⟩ := List.mem_map.mp h
        exact ⟨k, Nat.lt_succ_self k, t, ht, rfl⟩
    · rintro ⟨j, hj, t, ht, rfl⟩
      rcases Nat.lt_succ_iff_lt_or_eq.mp hj with hj | rfl
      · exact Or.inl ⟨j, hj, t, ht, rfl⟩
      · exact Or.inr (List.mem_map.mpr ⟨t, ht, rfl⟩)

theorem powRes_flips (F : VFS n) (k : ℕ) :
    (powRes F (k + 2)).flips =
      repBlocks (pullback F) F.flips (k + 2) := by
  show powLoop (pullback F) F.flips.length (F.flips.length * (k + 2 - 1))
    F.flips = _
  rw [show k + 2 - 1 = k + 1 from rfl, powLoop_repBlocks]

/-- The propagation step absorbs a preceding normalisation. -/
theorem unflipStep_canonE {F : VFS n} (hF : WF F) (y : Fin n) :
    unflipStep F (canonE F.startT y) = unflipStep F y := by
  obtain ⟨⟨hinv, hcan, -, -⟩, hbij, hcomm, -, -, -⟩ := id hF
  rw [unflipStep_eq, unflipStep_eq]
  exact canonE_absorb hinv hcan hcomm y

theorem unflipStep_iterate_canonE {F : VFS n} (hF : WF F) (m : ℕ)
    (y : Fin n) :
    (unflipStep F)^[m + 1] (canonE F.startT y) =
      (unflipStep F)^[m + 1] y := by
  rw [Function.iterate_succ_apply, Function.iterate_succ_apply,
    unflipStep_canonE hF]

/-- The propagation step of `F ** K` is the `K`-fold iterate of `F`'s. -/
theorem unflipStep_powRes {F : VFS n} (hF : WF F) (k : ℕ) (x : Fin n) :
    unflipStep (powRes F (k + 1)) x = (unflipStep F)^[k + 1] x := by
  induction k generalizing x with
  | zero => rfl
  | succ k ih =>
    show canonE F.startT (F.rel^[k + 2] x) = _
    have h1 : F.rel^[k + 2] x = F.rel^[k + 1] (F.rel x) :=
      Function.iterate_succ_apply F.rel (k + 1) x
    rw [h1]
    have h2 : canonE F.startT (F.rel^[k + 1] (F.rel x)) =
        unflipStep (powRes F (k + 1)) (F.rel x) := rfl
    rw [h2, ih]
    have h3 : (unflipStep F)^[k + 2] x =
        (unflipStep F)^[k + 1] (unflipStep F x) :=
      Function.iterate_succ_apply (unflipStep F) (k + 1) x
    rw [h3, unflipStep_eq F x, ← unflipStep_iterate_canonE hF k (F.rel x)]

/-- The single pullback map on edges. -/
def pullE (F : VFS n) (x : Fin n) : Fin n :=
  canonE F.startT (permInv F.rel x)

theorem pullE_rep {F : VFS n} (hF : WF F) (x : Fin n) :
    ((pullE F x : ℕ) < F.startT.numEdges) := by
  obtain ⟨⟨hinv, hcan, -, -⟩, -, -, -, -, -⟩ := id hF
  exact canonE_lt hinv hcan _

theorem pullE_iterate_rep {F : VFS n} (hF : WF F) {s : Fin n}
    (hs : (s : ℕ) < F.startT.numEdges) (j : ℕ) :
    (((pullE F)^[j] s : ℕ) < F.startT.numEdges) := by
  cases j with
  | zero => exact hs
  | succ j =>
    rw [Function.iterate_succ_apply']
    exact pullE_rep hF _

/-- The pullback undoes one propagation step (up to normalisation). -/
theorem unflipStep_pullE {F : VFS n} (hF : WF F) (y : Fin n) :
    unflipStep F (pullE F y) = canonE F.startT y := by
  obtain ⟨⟨hinv, hcan, -, -⟩, hbij, hcomm, -, -, -⟩ := id hF
  rw [unflipStep_eq]
  show canonE F.startT (F.rel (canonE F.startT (permInv F.rel y))) = _
  rw [canonE_absorb hinv hcan hcomm, permInv_rightInverse hbij.2]

theorem unflipStep_iterate_pullE {F : VFS n} (hF : WF F) {s : Fin n}
    (hs : (s : ℕ) < F.startT.numEdges) :
    ∀ j a, j ≤ a →
    (unflipStep F)^[a] ((pullE F)^[j] s) = (unflipStep F)^[a - j] s := by
  intro j
  induction j with
  | zero => intro a ha; rfl
  | succ j ih =>
    intro a ha
    obtain ⟨a', rfl⟩ : ∃ a', a = a' + 1 := by
      rcases a with - | a'
      · omega
      · exact ⟨a', rfl⟩
    rw [Function.iterate_succ_apply' (pullE F) j s,
      Function.iterate_succ_apply (unflipStep F) a',
      unflipStep_pullE hF]
    have hrep : ((pullE F)^[j] s : ℕ) < F.startT.numEdges :=
      pullE_iterate_rep hF hs j
    have hcanid : canonE F.startT ((pullE F)^[j] s) = (pullE F)^[j] s := by
      unfold canonE
      simp [hrep]
    rw [hcanid, ih a' (by omega)]
    congr 1
    omega

/-- Every edge reachable for `F` is reachable for `F ** K`, `K ≥ 2`. -/
theorem Reaches_powRes {F : VFS n} (hF : WF F) (k : ℕ) {e : Fin n}
    (he : Reaches F e) : Reaches (powRes F (k + 2)) e := by
  obtain ⟨s, hs, m, rfl⟩ := he
  obtain ⟨-, -, -, -, hreplay, -⟩ := id hF
  obtain ⟨⟨hinv, hcan, -, -⟩, -, -, -, -, -⟩ := id hF
  have hsrep : (s : ℕ) < F.startT.numEdges := by
    obtain ⟨t, ht, rfl⟩ := List.mem_map.mp hs
    exact (hcan _).mpr (Nat.not_lt.mp (replayOk_canon hreplay t ht))
  set K := k + 2 with hK
  -- choose q, j with q * K = m + j and j < K
  obtain ⟨q, j, hjK, hqK⟩ : ∃ q j, j < K ∧ q * K = m + j := by
    have hdm : K * (m / K) + m % K = m := Nat.div_add_mod m K
    have hmod : m % K < K := Nat.mod_lt m (by omega)
    by_cases hr : m % K = 0
    · exact ⟨m / K, 0, by omega, by
        rw [Nat.mul_comm]
        omega⟩
    · exact ⟨m / K + 1, K - m % K, by omega, by
        rw [Nat.add_mul, Nat.one_mul, Nat.mul_comm]
        omega⟩
  refine ⟨(pullE F)^[j] s, ?_, q, ?_⟩
  · -- the pulled-back seed is an edge of the replicated log
    rw [List.mem_map]
    obtain ⟨t, ht, rfl⟩ := List.mem_map.mp hs
    refine ⟨(pullback F)^[j] t, ?_, ?_⟩
    · rw [powRes_flips]
      exact mem_repBlocks.mpr ⟨j, hjK, t, ht, rfl⟩
    · rw [pullback_iterate_snd]
      rfl
  · -- q iterations of the K-fold step reach e
    have hstepP : ∀ (a : ℕ) (x : Fin n),
        (unflipStep (powRes F K))^[a] x = (unflipStep F)^[a * K] x := by
      intro a
      induction a with
      | zero =>
        intro x
        rw [Nat.zero_mul, Function.iterate_zero, Function.iterate_zero]
      | succ a iha =>
        intro x
        rw [Function.iterate_succ_apply, iha,
          show (a + 1) * K = a * K + K by ring,
          Function.iterate_add_apply]
        congr 1
        exact unflipStep_powRes hF (k + 1) x
    rw [hstepP q]
    rw [hqK, unflipStep_iterate_pullE hF hsrep j (m + j) (by omega)]
    congr 1
    omega

/-! ## Rotation, orientation swaps and the inverse -/

theorem rotTri_fp (T : Tri n) : (rotTri T).fp = T.fp := rfl

theorem rotTri_ep (T : Tri n) : (rotTri T).ep = T.ep := rfl

theorem rotTri_relabelTri (p : Fin n → Fin n) (T : Tri n) :
    rotTri (relabelTri p T) = relabelTri p (rotTri T) := rfl

theorem rotTri_triFlip (T : Tri n) (e : Fin n) (col : Colour) :
    rotTri (triFlip T e col) = triFlip (rotTri T) e (Colour.rot col) := by
  unfold rotTri triFlip
  rw [Tri.mk.injEq]
  refine ⟨rfl, rfl, ?_⟩
  funext x
  simp only [apply_ite Colour.rot]

theorem flipSquareOk_rot {T : Tri n} {e : Fin n} (h : flipSquareOk T e) :
    flipSquareOk (rotTri T) e := h

theorem Colour.rot_eq_opp {c : Colour}
    (h : c = Colour.RED ∨ c = Colour.BLUE) : Colour.rot c = Colour.opp c := by
  rcases h with rfl | rfl <;> rfl

/-- The transposition of the two half-edges of an edge. -/
def swapEp (ep : Fin n → Fin n) (e : Fin n) : Fin n → Fin n :=
  fun x => if x = e then ep e else if x = ep e then e else x

theorem swapEp_at_e (ep : Fin n → Fin n) (e : Fin n) :
    swapEp ep e e = ep e := by
  unfold swapEp
  simp

theorem swapEp_at_ep {ep : Fin n → Fin n} {e : Fin n}
    (hinv : ep (ep e) = e) : swapEp ep e (ep e) = e := by
  unfold swapEp
  by_cases h : ep e = e
  · simp [h]
  · simp [h]

theorem swapEp_at_other {ep : Fin n → Fin n} {e x : Fin n}
    (h1 : x ≠ e) (h2 : x ≠ ep e) : swapEp ep e x = x := by
  unfold swapEp
  simp [h1, h2]

theorem swapEp_invol {ep : Fin n → Fin n} {e : Fin n}
    (hinv : ep (ep e) = e) (x : Fin n) :
    swapEp ep e (swapEp ep e x) = x := by
  by_cases h1 : x = e
  · subst h1
    rw [swapEp_at_e, swapEp_at_ep hinv]
  · by_cases h2 : x = ep e
    · subst h2
      rw [swapEp_at_ep hinv, swapEp_at_e]
    · rw [swapEp_at_other h1 h2, swapEp_at_other h1 h2]

theorem swapEp_bijective {ep : Fin n → Fin n} {e : Fin n}
    (hinv : ep (ep e) = e) : Function.Bijective (swapEp ep e) :=
  Function.Involutive.bijective (swapEp_invol hinv)

theorem permInv_of_involutive {f : Fin n → Fin n}
    (hf : ∀ x, f (f x) = x) : permInv f = f := by
  have hbij : Function.Bijective f := Function.Involutive.bijective hf
  funext y
  rw [permInv_eq_iff hbij, hf]

theorem swapEp_mem {ep : Fin n → Fin n} {e : Fin n}
    (hinv : ep (ep e) = e) (x : Fin n) :
    swapEp ep e x = x ∨ swapEp ep e x = ep x := by
  by_cases h1 : x = e
  · subst h1
    rw [swapEp_at_e]
    exact Or.inr rfl
  · by_cases h2 : x = ep e
    · subst h2
      rw [swapEp_at_ep hinv]
      exact Or.inr hinv.symm
    · rw [swapEp_at_other h1 h2]
      exact Or.inl rfl

theorem swapEp_ep_self {ep : Fin n → Fin n} {e : Fin n}
    (hinv : ep (ep e) = e) : swapEp ep (ep e) = swapEp ep e := by
  have hinv' : ep (ep (ep e)) = ep e := congrArg ep hinv
  funext x
  by_cases h1 : x = e
  · subst h1
    rw [swapEp_at_e]
    by_cases h2 : ep x = x
    · rw [h2, swapEp_at_e, h2]
    · have h3 := @swapEp_at_ep _ ep (ep x) hinv'
      rw [hinv] at h3
      rw [h3]
  · by_cases h2 : x = ep e
    · subst h2
      rw [swapEp_at_e, swapEp_at_ep hinv, hinv]
    · have h3 : x ≠ ep (ep e) := by rw [hinv]; exact h1
      rw [swapEp_at_other h2 h3, swapEp_at_other h1 h2]

/-- Orientation swaps at two edges commute (the supports are equal or
disjoint pairs of an involution). -/
theorem swapEp_comm {ep : Fin n → Fin n}
    (hinv : ∀ x, ep (ep x) = x) (e e' x : Fin n) :
    swapEp ep e (swapEp ep e' x) = swapEp ep e' (swapEp ep e x) := by
  by_cases hee : e' = e
  · subst hee
    rfl
  by_cases heE : e' = ep e
  · subst heE
    rw [swapEp_ep_self (hinv e)]
  · -- disjoint supports
    have hs1 : e ≠ e' := fun h => hee h.symm
    have hs2 : e ≠ ep e' := by
      intro h
      exact heE (by rw [h, hinv])
    have hs3 : ep e ≠ e' := fun h => heE h.symm
    have hs4 : ep e ≠ ep e' := by
      intro h
      have h2 := congrArg ep h
      rw [hinv, hinv] at h2
      exact hee h2.symm
    have hs5 : e' ≠ e := hee
    have hs6 : e' ≠ ep e := heE
    have hs7 : ep e' ≠ e := fun h => hs2 h.symm
    have hs8 : ep e' ≠ ep e := fun h => hs4 h.symm
    by_cases hx1 : x = e'
    · have i1 : swapEp ep e' x = ep e' := by
        rw [hx1]
        exact swapEp_at_e ep e'
      have i2 : swapEp ep e x = x := by
        rw [hx1]
        exact swapEp_at_other hs5 hs6
      rw [i1, i2, swapEp_at_other hs7 hs8, hx1, swapEp_at_e]
    · by_cases hx2 : x = ep e'
      · have i1 : swapEp ep e' x = e' := by
          rw [hx2]
          exact swapEp_at_ep (hinv e')
        have i2 : swapEp ep e x = x := by
          rw [hx2]
          exact swapEp_at_other hs7 hs8
        rw [i1, i2, swapEp_at_other hs5 hs6, hx2,
          swapEp_at_ep (hinv e')]
      · by_cases hx3 : x = e
        · have i1 : swapEp ep e' x = x := by
            rw [hx3]
            exact swapEp_at_other hs1 hs2
          have i2 : swapEp ep e x = ep e := by
            rw [hx3]
            exact swapEp_at_e ep e
          rw [i1, i2, swapEp_at_other hs3 hs4]
        · by_cases hx4 : x = ep e
          · have i1 : swapEp ep e' x = x := by
              rw [hx4]
              exact swapEp_at_other hs3 hs4
            have i2 : swapEp ep e x = e := by
              rw [hx4]
              exact swapEp_at_ep (hinv e)
            rw [i1, i2, swapEp_at_other hs1 hs2]
          · rw [swapEp_at_other hx1 hx2, swapEp_at_other hx3 hx4,
              swapEp_at_other hx1 hx2]

/-- Conjugating an orientation swap by an `ep`-equivariant permutation. -/
theorem swapEp_conj {p ep : Fin n → Fin n} (hp : Function.Bijective p)
    (hcomm : ∀ y, p (ep y) = ep (p y)) (e x : Fin n) :
    swapEp ep (p e) x = p (swapEp ep e (permInv p x)) := by
  unfold swapEp
  rw [← hcomm]
  simp only [permInv_eq_iff hp, apply_ite p,
    permInv_rightInverse hp.2]

/-- The composite of the orientation swaps of a list of edges (first edge
innermost). -/
def corrList (ep : Fin n → Fin n) : List (Fin n) → (Fin n → Fin n)
  | [] => fun x => x
  | e :: es => fun x => corrList ep es (swapEp ep e x)

theorem corrList_mem {ep : Fin n → Fin n} (hinv : ∀ x, ep (ep x) = x)
    (es : List (Fin n)) (x : Fin n) :
    corrList ep es x = x ∨ corrList ep es x = ep x := by
  induction es generalizing x with
  | nil => exact Or.inl rfl
  | cons e es ih =>
    have hstep : corrList ep (e :: es) x = corrList ep es (swapEp ep e x) :=
      rfl
    rw [hstep]
    rcases swapEp_mem (hinv e) x with h | h
    · rw [h]
      exact ih x
    · rw [h]
      rcases ih (ep x) with h2 | h2
      · rw [h2]
        exact Or.inr rfl
      · rw [h2, hinv x]
        exact Or.inl rfl

theorem corrList_comm_swap {ep : Fin n → Fin n}
    (hinv : ∀ x, ep (ep x) = x) (es : List (Fin n)) (e x : Fin n) :
    corrList ep es (swapEp ep e x) = swapEp ep e (corrList ep es x) := by
  induction es generalizing x with
  | nil => rfl
  | cons e' es ih =>
    show corrList ep es (swapEp ep e' (swapEp ep e x)) = _
    rw [swapEp_comm hinv e' e x, ih]
    rfl

theorem corrList_invol {ep : Fin n → Fin n}
    (hinv : ∀ x, ep (ep x) = x) (es : List (Fin n)) (x : Fin n) :
    corrList ep es (corrList ep es x) = x := by
  induction es generalizing x with
  | nil => rfl
  | cons e es ih =>
    show corrList ep es (swapEp ep e (corrList ep es (swapEp ep e x))) = x
    rw [← corrList_comm_swap hinv es e, swapEp_invol (hinv e), ih]

theorem corrList_bijective {ep : Fin n → Fin n}
    (hinv : ∀ x, ep (ep x) = x) (es : List (Fin n)) :
    Function.Bijective (corrList ep es) :=
  Function.Involutive.bijective (corrList_invol hinv es)

theorem corrList_conj {p ep : Fin n → Fin n} (hp : Function.Bijective p)
    (hcomm : ∀ y, p (ep y) = ep (p y)) (es : List (Fin n)) (x : Fin n) :
    corrList ep (es.map p) x = p (corrList ep es (permInv p x)) := by
  induction es generalizing x with
  | nil => rw [List.map_nil]; exact (permInv_rightInverse hp.2 x).symm
  | cons e es ih =>
    rw [List.map_cons]
    show corrList ep (es.map p) (swapEp ep (p e) x) = _
    rw [swapEp_conj hp hcomm, ih, permInv_leftInverse hp]
    rfl

/-! ## Double flips undo themselves up to an orientation swap -/

theorem sixDistinct_shift {e a b E c d : Fin n}
    (h : sixDistinct e a b E c d) : sixDistinct e b c E d a := by
  obtain ⟨hea, heb, heE, hec, hed, hab, haE, hac, had, hbE, hbc, hbd, hEc,
    hEd, hcd⟩ := h
  exact ⟨heb, hec, heE, hed, hea, hbc, hbE, hbd, Ne.symm hab, Ne.symm hEc,
    hcd, Ne.symm hac, hEd, Ne.symm haE, Ne.symm had⟩

theorem flipFp_at_e (f : Fin n → Fin n) {e E a b c d : Fin n}
    (h : sixDistinct e a b E c d) : flipFp f e E a b c d e = b := by
  obtain ⟨hea, heb, heE, hec, hed, -, -, -, -, -, -, -, -, -, -⟩ := h
  unfold flipFp
  simp [hea, heb, heE, hec, hed]

theorem flipFp_at_a (f : Fin n → Fin n) (e E a b c d : Fin n) :
    flipFp f e E a b c d a = E := by
  unfold flipFp
  simp

theorem flipFp_at_b (f : Fin n → Fin n) {e E a b c d : Fin n}
    (h : sixDistinct e a b E c d) : flipFp f e E a b c d b = c := by
  obtain ⟨-, -, -, -, -, hab, -, -, -, hbE, hbc, hbd, -, -, -⟩ := h
  unfold flipFp
  simp [Ne.symm hab, hbE, hbc, hbd]

theorem flipFp_at_c (f : Fin n → Fin n) {e E a b c d : Fin n}
    (h : sixDistinct e a b E c d) : flipFp f e E a b c d c = e := by
  obtain ⟨-, -, -, -, -, -, -, hac, -, -, -, -, hEc, -, hcd⟩ := h
  unfold flipFp
  simp [Ne.symm hac, Ne.symm hEc, hcd]

theorem flipFp_at_E (f : Fin n → Fin n) {e E a b c d : Fin n}
    (h : sixDistinct e a b E c d) : flipFp f e E a b c d E = d := by
  obtain ⟨-, -, -, -, -, -, haE, -, -, -, -, -, -, hEd, -⟩ := h
  unfold flipFp
  simp [Ne.symm haE, hEd]

theorem flipFp_at_d (f : Fin n → Fin n) {e E a b c d : Fin n}
    (h : sixDistinct e a b E c d) : flipFp f e E a b c d d = a := by
  obtain ⟨-, -, -, -, -, -, -, -, had, -, -, -, -, -, -⟩ := h
  unfold flipFp
  simp [Ne.symm had]

theorem flipFp_at_other (f : Fin n → Fin n) {e E a b c d x : Fin n}
    (hxe : x ≠ e) (hxa : x ≠ a) (hxb : x ≠ b) (hxE : x ≠ E) (hxc : x ≠ c)
    (hxd : x ≠ d) : flipFp f e E a b c d x = f x := by
  unfold flipFp
  simp [hxe, hxa, hxb, hxE, hxc, hxd]

/-- The square about `e` remains valid after flipping `e`. -/
theorem flipSquareOk_triFlip_self {T : Tri n} {e : Fin n}
    (hok : flipSquareOk T e) (col : Colour) :
    flipSquareOk (triFlip T e col) e := by
  obtain ⟨h1, h2, h3, h4, hd⟩ := hok
  have hd' := hd
  obtain ⟨hea, heb, heE, hec, hed, hab, haE, hac, had, hbE, hbc, hbd, hEc,
    hEd, hcd⟩ := hd'
  have hfe : (triFlip T e col).fp e = T.fp (T.fp e) := flipFp_at_e T.fp hd
  have hfa : (triFlip T e col).fp (T.fp e) = T.ep e :=
    flipFp_at_a T.fp e (T.ep e) (T.fp e) (T.fp (T.fp e)) (T.fp (T.ep e))
      (T.fp (T.fp (T.ep e)))
  have hfb : (triFlip T e col).fp (T.fp (T.fp e)) = T.fp (T.ep e) :=
    flipFp_at_b T.fp hd
  have hfc : (triFlip T e col).fp (T.fp (T.ep e)) = e := flipFp_at_c T.fp hd
  have hfE : (triFlip T e col).fp (T.ep e) = T.fp (T.fp (T.ep e)) :=
    flipFp_at_E T.fp hd
  have hfd : (triFlip T e col).fp (T.fp (T.fp (T.ep e))) = T.fp e :=
    flipFp_at_d T.fp hd
  have hept : (triFlip T e col).ep = T.ep := rfl
  refine ⟨?_, ?_, ?_, ?_, ?_⟩
  · rw [hfe, hfb, hfc]
  · rw [hept, hfE, hfd, hfa]
  · intro x hx
    rw [hfe, hfb]
    by_cases hx1 : x = e
    · rw [hx1, hfe] at hx
      exact absurd hx.symm heb
    by_cases hx2 : x = T.fp e
    · rw [hx2, hfa] at hx
      exact absurd hx.symm heE
    by_cases hx3 : x = T.fp (T.fp e)
    · rw [hx3, hfb] at hx
      exact absurd hx.symm hec
    by_cases hx4 : x = T.ep e
    · rw [hx4, hfE] at hx
      exact absurd hx.symm hed
    by_cases hx5 : x = T.fp (T.ep e)
    · exact hx5
    by_cases hx6 : x = T.fp (T.fp (T.ep e))
    · rw [hx6, hfd] at hx
      exact absurd hx.symm hea
    · have hfo : (triFlip T e col).fp x = T.fp x :=
        flipFp_at_other T.fp hx1 hx2 hx3 hx4 hx5 hx6
      rw [hfo] at hx
      exact absurd (h3 x hx) hx3
  · intro x hx
    rw [hept] at hx
    rw [hept, hfE, hfd]
    by_cases hx1 : x = e
    · rw [hx1, hfe] at hx
      exact absurd hx hbE
    by_cases hx2 : x = T.fp e
    · exact hx2
    by_cases hx3 : x = T.fp (T.fp e)
    · rw [hx3, hfb] at hx
      exact absurd hx (Ne.symm hEc)
    by_cases hx4 : x = T.ep e
    · rw [hx4, hfE] at hx
      exact absurd hx (Ne.symm hEd)
    by_cases hx5 : x = T.fp (T.ep e)
    · rw [hx5, hfc] at hx
      exact absurd hx heE
    by_cases hx6 : x = T.fp (T.fp (T.ep e))
    · rw [hx6, hfd] at hx
      exact absurd hx haE
    · have hfo : (triFlip T e col).fp x = T.fp x :=
        flipFp_at_other T.fp hx1 hx2 hx3 hx4 hx5 hx6
      rw [hfo] at hx
      exact absurd (h4 x hx) hx6
  · rw [hept, hfe, hfb, hfE, hfd]
    exact sixDistinct_shift hd

/-- Applying the quadrilateral rewiring twice about the same edge is the
conjugation of `f` by the transposition of the two half-edges of that
edge. -/
theorem flipFp_double (f ep : Fin n → Fin n) {e E a b c d : Fin n}
    (hd : sixDistinct e a b E c d) (hepE : ep e = E)
    (hfe : f e = a) (hfa : f a = b) (hfb : f b = e)
    (hfE : f E = c) (hfc : f c = d) (hfd : f d = E)
    (h3 : ∀ x, f x = e → x = b) (h4 : ∀ x, f x = E → x = d) (x : Fin n) :
    flipFp (flipFp f e E a b c d) e E b c d a x
      = swapEp ep e (f (swapEp ep e x)) := by
  have hd2 := sixDistinct_shift hd
  obtain ⟨hea, heb, heE, hec, hed, hab, haE, hac, had, hbE, hbc, hbd, hEc,
    hEd, hcd⟩ := hd
  have hge : swapEp ep e e = E := by rw [swapEp_at_e, hepE]
  have hgE : swapEp ep e E = e := by
    unfold swapEp
    rw [if_neg (Ne.symm heE), if_pos hepE.symm]
  have hgo : ∀ y, y ≠ e → y ≠ E → swapEp ep e y = y := by
    intro y hye hyE
    exact swapEp_at_other hye (by rw [hepE]; exact hyE)
  by_cases hx1 : x = e
  · rw [hx1, flipFp_at_e (flipFp f e E a b c d) hd2, hge, hfE,
      hgo c (Ne.symm hec) (Ne.symm hEc)]
  by_cases hx2 : x = a
  · rw [hx2, flipFp_at_d (flipFp f e E a b c d) hd2,
      hgo a (Ne.symm hea) haE, hfa, hgo b (Ne.symm heb) hbE]
  by_cases hx3 : x = b
  · rw [hx3, flipFp_at_a (flipFp f e E a b c d) e E b c d a,
      hgo b (Ne.symm heb) hbE, hfb, hge]
  by_cases hx4 : x = E
  · rw [hx4, flipFp_at_E (flipFp f e E a b c d) hd2, hgE, hfe,
      hgo a (Ne.symm hea) haE]
  by_cases hx5 : x = c
  · rw [hx5, flipFp_at_b (flipFp f e E a b c d) hd2,
      hgo c (Ne.symm hec) (Ne.symm hEc), hfc,
      hgo d (Ne.symm hed) (Ne.symm hEd)]
  by_cases hx6 : x = d
  · rw [hx6, flipFp_at_c (flipFp f e E a b c d) hd2,
      hgo d (Ne.symm hed) (Ne.symm hEd), hfd, hgE]
  · rw [flipFp_at_other (flipFp f e E a b c d) hx1 hx3 hx5 hx4 hx6 hx2,
      flipFp_at_other f hx1 hx2 hx3 hx4 hx5 hx6, hgo x hx1 hx4]
    have hfxe : f x ≠ e := fun h => hx3 (h3 x h)
    have hfxE : f x ≠ E := fun h => hx6 (h4 x h)
    rw [hgo (f x) hfxe hfxE]

/-- Flipping an edge and flipping it back to its recorded colour restores
the triangulation up to the transposition of the two half-edges of that
edge: the correction `inverse()` accumulates for each inverted flip. -/
theorem triFlip_triFlip {T : Tri n} {e : Fin n} (c o : Colour)
    (hinv : ∀ x, T.ep (T.ep x) = x)
    (hcoh : T.colouring (T.ep e) = T.colouring e)
    (hcol : T.colouring e = o)
    (hok : flipSquareOk T e) :
    triFlip (triFlip T e c) e o = relabelTri (swapEp T.ep e) T := by
  obtain ⟨h1, h2, h3, h4, hd⟩ := hok
  have hd' := hd
  obtain ⟨hea, heb, heE, hec, hed, hab, haE, hac, had, hbE, hbc, hbd, hEc,
    hEd, hcd⟩ := hd'
  have hswinv : ∀ x, swapEp T.ep e (swapEp T.ep e x) = x :=
    swapEp_invol (hinv e)
  have hpi : permInv (swapEp T.ep e) = swapEp T.ep e :=
    permInv_of_involutive hswinv
  have ha1 : (triFlip T e c).fp e = T.fp (T.fp e) := flipFp_at_e T.fp hd
  have hb1 : (triFlip T e c).fp (T.fp (T.fp e)) = T.fp (T.ep e) :=
    flipFp_at_b T.fp hd
  have hE1 : (triFlip T e c).fp (T.ep e) = T.fp (T.fp (T.ep e)) :=
    flipFp_at_E T.fp hd
  have hd1 : (triFlip T e c).fp (T.fp (T.fp (T.ep e))) = T.fp e :=
    flipFp_at_d T.fp hd
  have hfp : (triFlip (triFlip T e c) e o).fp
      = flipFp (triFlip T e c).fp e (T.ep e) (T.fp (T.fp e)) (T.fp (T.ep e))
        (T.fp (T.fp (T.ep e))) (T.fp e) := by
    show flipFp (triFlip T e c).fp e ((triFlip T e c).ep e)
      ((triFlip T e c).fp e) ((triFlip T e c).fp ((triFlip T e c).fp e))
      ((triFlip T e c).fp ((triFlip T e c).ep e))
      ((triFlip T e c).fp
        ((triFlip T e c).fp ((triFlip T e c).ep e))) = _
    rw [show (triFlip T e c).ep = T.ep from rfl, ha1, hb1, hE1, hd1]
  refine Tri.fields_ext ?_ ?_ ?_
  · funext x
    rw [hfp]
    show _ = swapEp T.ep e (T.fp (permInv (swapEp T.ep e) x))
    rw [hpi]
    exact flipFp_double T.fp T.ep hd rfl rfl rfl h1 rfl rfl h2 h3 h4 x
  · funext x
    show T.ep x = swapEp T.ep e (T.ep (permInv (swapEp T.ep e) x))
    rw [hpi]
    by_cases hx1 : x = e
    · rw [hx1, swapEp_at_e, hinv, swapEp_at_e]
    by_cases hx2 : x = T.ep e
    · rw [hx2, swapEp_at_ep (hinv e), swapEp_at_ep (hinv e)]
      exact hinv e
    · have hepxe : T.ep x ≠ e := by
        intro h
        have := congrArg T.ep h
        rw [hinv] at this
        exact hx2 this
      have hepxE : T.ep x ≠ T.ep e := by
        intro h
        have := congrArg T.ep h
        rw [hinv, hinv] at this
        exact hx1 this
      rw [swapEp_at_other hx1 hx2, swapEp_at_other hepxe hepxE]
  · funext x
    show (if x = e then o else if x = (triFlip T e c).ep e then o
        else (triFlip T e c).colouring x)
      = T.colouring (permInv (swapEp T.ep e) x)
    rw [hpi, show (triFlip T e c).ep = T.ep from rfl]
    by_cases hx1 : x = e
    · rw [if_pos hx1, hx1, swapEp_at_e, hcoh, hcol]
    by_cases hx2 : x = T.ep e
    · rw [if_neg hx1, if_pos hx2, hx2, swapEp_at_ep (hinv e), hcol]
    · rw [if_neg hx1, if_neg hx2, triFlip_colouring, if_neg hx1, if_neg hx2,
        swapEp_at_other hx1 hx2]

theorem applyFlips_singleton (e : Fin n) (col : Colour) (T : Tri n) :
    applyFlips [(e, col)] T = triFlip T e col := rfl

theorem applyFlips_append (fs gs : List (Fin n × Colour)) (T : Tri n) :
    applyFlips (fs ++ gs) T = applyFlips gs (applyFlips fs T) :=
  List.foldl_append ..

/-- Stepwise flippability of a list of `(edge, colour)` flips: each edge is
the diagonal of a valid square when its turn comes. -/
def flipsOkB (T : Tri n) : List (Fin n × Colour) → Bool
  | [] => true
  | f :: fs => decide (flipSquareOk T f.1) && flipsOkB (triFlip T f.1 f.2) fs

theorem flipsOkB_cons (T : Tri n) (f : Fin n × Colour)
    (fs : List (Fin n × Colour)) :
    flipsOkB T (f :: fs)
      = (decide (flipSquareOk T f.1) && flipsOkB (triFlip T f.1 f.2) fs) :=
  rfl

theorem flipsOkB_append (T : Tri n) (fs gs : List (Fin n × Colour)) :
    flipsOkB T (fs ++ gs)
      = (flipsOkB T fs && flipsOkB (applyFlips fs T) gs) := by
  induction fs generalizing T with
  | nil => rfl
  | cons f fs ih =>
    rw [List.cons_append, flipsOkB_cons, ih, flipsOkB_cons, Bool.and_assoc]
    rfl

theorem corrList_cons (ep : Fin n → Fin n) (e : Fin n) (es : List (Fin n)) :
    corrList ep (e :: es) = fun x => corrList ep es (swapEp ep e x) := rfl

/-- Replaying the inverted flips (reversed log, opposite old colours) from
the rotated final triangulation undoes the whole replay, up to the product
of the half-edge transpositions of the flipped edges; moreover every
inverted flip is performed on a flippable square. -/
theorem invReplay {S : Tri n} {fs : List (Fin n × Colour × Colour)}
    (htri : TriWF S) (hrep : replayOkB S fs = true)
    (hcols : ∀ t ∈ fs, t.2.1 = Colour.RED ∨ t.2.1 = Colour.BLUE) :
    applyFlips (fs.reverse.map (fun t => (t.1, Colour.opp t.2.2)))
        (rotTri (applyTriples fs S))
      = relabelTri (corrList S.ep (fs.map (fun t => t.1))) (rotTri S)
    ∧ flipsOkB (rotTri (applyTriples fs S))
        (fs.reverse.map (fun t => (t.1, Colour.opp t.2.2))) = true := by
  induction fs generalizing S with
  | nil =>
    exact ⟨(relabelTri_id (rotTri S)).symm, rfl⟩
  | cons t fs ih =>
    obtain ⟨hinv, hcan, hcoh, hrb⟩ := htri
    obtain ⟨hstep, hrest⟩ := replayOk_head hrep
    obtain ⟨hcanS, hcolS, hokS⟩ := stepOk_parts hstep
    have htri1 : TriWF (triFlip S t.1 t.2.1) :=
      TriWF_triFlip ⟨hinv, hcan, hcoh, hrb⟩
        (hcols t (List.mem_cons_self t fs))
    obtain ⟨ihEq, ihOk⟩ := ih htri1 hrest
      (fun u hu => hcols u (List.mem_cons_of_mem t hu))
    rw [triFlip_ep] at ihEq
    have hκinv : ∀ x, corrList S.ep (List.map (fun t => t.1) fs)
        (corrList S.ep (List.map (fun t => t.1) fs) x) = x :=
      corrList_invol hinv _
    have hκbij : Function.Bijective
        (corrList S.ep (List.map (fun t => t.1) fs)) :=
      corrList_bijective hinv _
    have hXok : flipSquareOk (triFlip (rotTri S) t.1 (Colour.rot t.2.1))
        t.1 := flipSquareOk_triFlip_self (flipSquareOk_rot hokS) _
    have hmem := corrList_mem hinv (List.map (fun t => t.1) fs) t.1
    have hκtok : flipSquareOk (triFlip (rotTri S) t.1 (Colour.rot t.2.1))
        (corrList S.ep (List.map (fun t => t.1) fs) t.1) := by
      rcases hmem with h | h
      · rw [h]
        exact hXok
      · rw [h]
        exact flipSquareOk_ep (hinv t.1) hXok
    have hflipeq : triFlip (triFlip (rotTri S) t.1 (Colour.rot t.2.1))
        (corrList S.ep (List.map (fun t => t.1) fs) t.1) (Colour.opp t.2.2)
        = triFlip (triFlip (rotTri S) t.1 (Colour.rot t.2.1)) t.1
          (Colour.opp t.2.2) := by
      rcases hmem with h | h
      · rw [h]
      · rw [h]
        exact triFlip_ep_symm _ t.1 _ (hinv t.1) hXok
    have hrb22 : t.2.2 = Colour.RED ∨ t.2.2 = Colour.BLUE := by
      rw [← hcolS]
      exact hrb t.1
    have hdf : triFlip (triFlip (rotTri S) t.1 (Colour.rot t.2.1)) t.1
        (Colour.opp t.2.2) = relabelTri (swapEp S.ep t.1) (rotTri S) :=
      triFlip_triFlip (Colour.rot t.2.1) (Colour.opp t.2.2) hinv
        (congrArg Colour.rot (hcoh t.1))
        (by
          show Colour.rot (S.colouring t.1) = Colour.opp t.2.2
          rw [hcolS]
          exact Colour.rot_eq_opp hrb22)
        (flipSquareOk_rot hokS)
    have h0 := relabelTri_triFlip hκbij
      (triFlip (rotTri S) t.1 (Colour.rot t.2.1))
      (corrList S.ep (List.map (fun t => t.1) fs) t.1) (Colour.opp t.2.2)
    rw [hκinv t.1] at h0
    constructor
    · simp only [List.reverse_cons, List.map_append, List.map_cons,
        List.map_nil]
      rw [applyTriples_cons, applyFlips_append, ihEq, rotTri_triFlip,
        applyFlips_singleton, ← h0, hflipeq, hdf, corrList_cons]
      exact relabelTri_comp hκbij (swapEp_bijective (hinv t.1)) (rotTri S)
    · simp only [List.reverse_cons, List.map_append, List.map_cons,
        List.map_nil]
      rw [applyTriples_cons, flipsOkB_append, ihOk, Bool.true_and, ihEq,
        rotTri_triFlip]
      have h5 := flipSquareOk_relabel hκbij hκtok
      rw [hκinv t.1] at h5
      rw [flipsOkB_cons]
      show (decide (flipSquareOk _ t.1) && true) = true
      rw [Bool.and_true, decide_eq_true_eq]
      exact h5

/-- The canonicalisation performed by `VeeringFlipSequence.flip`: replace a
half-edge by its `ep`-partner when the partner has the smaller index. -/
def canonMin (ep : Fin n → Fin n) (x : Fin n) : Fin n :=
  if (ep x : ℕ) < (x : ℕ) then ep x else x

/-- Canonicalise every edge of an `(edge, colour)` list. -/
def canonPs (ep : Fin n → Fin n) (ps : List (Fin n × Colour)) :
    List (Fin n × Colour) :=
  ps.map (fun f => (canonMin ep f.1, f.2))

theorem flipOp_eq (F : VFS n) (e : Fin n) (col : Colour)
    (hrel : F.rel = fun x => x) :
    flipOp F e col = { F with
      endT := triFlip F.endT (canonMin F.endT.ep e) col,
      flips := F.flips ++ [(canonMin F.endT.ep e, col,
        F.endT.colouring e)] } := by
  unfold flipOp canonMin
  simp [hrel]

theorem applyFlips_cons (f : Fin n × Colour) (fs : List (Fin n × Colour))
    (T : Tri n) :
    applyFlips (f :: fs) T = applyFlips fs (triFlip T f.1 f.2) := rfl

theorem annotate_cons (T : Tri n) (f : Fin n × Colour)
    (fs : List (Fin n × Colour)) :
    annotate T (f :: fs)
      = (f.1, f.2, T.colouring f.1) :: annotate (triFlip T f.1 f.2) fs := rfl

/-- The constructor's replay fold, characterised without any canonicity
assumption on the input edges: every flip and every recorded triple uses
the canonicalised edge, and the recorded old colour is the colour of the
edge (equivalently of its representative, by coherence). -/
theorem buildFoldC (ps : List (Fin n × Colour)) (F : VFS n)
    (hrel : F.rel = fun x => x)
    (hinv : ∀ x, F.endT.ep (F.endT.ep x) = x)
    (hcoh : ∀ x, F.endT.colouring (F.endT.ep x) = F.endT.colouring x) :
    ps.foldl (fun F f => flipOp F f.1 f.2) F
      = { F with endT := applyFlips (canonPs F.endT.ep ps) F.endT,
                 flips := F.flips
                   ++ annotate F.endT (canonPs F.endT.ep ps) } := by
  induction ps generalizing F with
  | nil => simp [canonPs, applyFlips, annotate]
  | cons f ps ih =>
    rw [List.foldl_cons, flipOp_eq F f.1 f.2 hrel]
    have hccol : F.endT.colouring (canonMin F.endT.ep f.1)
        = F.endT.colouring f.1 := by
      unfold canonMin
      by_cases h : (F.endT.ep f.1 : ℕ) < (f.1 : ℕ)
      · rw [if_pos h]
        exact hcoh f.1
      · rw [if_neg h]
    have hrec := ih ⟨F.startT,
      triFlip F.endT (canonMin F.endT.ep f.1) f.2,
      F.flips ++ [(canonMin F.endT.ep f.1, f.2, F.endT.colouring f.1)],
      F.rel⟩ hrel (fun x => hinv x) (triFlip_colOk hinv hcoh)
    rw [hrec]
    simp only [canonPs, List.map_cons, applyFlips_cons, annotate_cons,
      triFlip_ep, hccol, List.append_assoc, List.singleton_append]

theorem buildSeqC (T : Tri n) (ps : List (Fin n × Colour))
    (r : Fin n → Fin n) (hinv : ∀ x, T.ep (T.ep x) = x)
    (hcoh : ∀ x, T.colouring (T.ep x) = T.colouring x) :
    buildSeq T ps r
      = ⟨T, relabelTri r (applyFlips (canonPs T.ep ps) T),
          annotate T (canonPs T.ep ps), r⟩ := by
  unfold buildSeq
  rw [buildFoldC ps (mkSeq T) rfl hinv hcoh]
  unfold relabelOp mkSeq
  simp

theorem canonMin_mem (ep : Fin n → Fin n) (x : Fin n) :
    canonMin ep x = x ∨ canonMin ep x = ep x := by
  unfold canonMin
  by_cases h : (ep x : ℕ) < (x : ℕ)
  · rw [if_pos h]
    exact Or.inr rfl
  · rw [if_neg h]
    exact Or.inl rfl

theorem canonMin_le {ep : Fin n → Fin n} (hinv : ∀ x, ep (ep x) = x)
    (x : Fin n) : (canonMin ep x : ℕ) ≤ (ep (canonMin ep x) : ℕ) := by
  unfold canonMin
  by_cases h : (ep x : ℕ) < (x : ℕ)
  · rw [if_pos h, hinv]
    exact Nat.le_of_lt h
  · rw [if_neg h]
    exact Nat.le_of_not_lt h

theorem triFlip_canonMin {T : Tri n} (hinv : ∀ x, T.ep (T.ep x) = x)
    {e : Fin n} (hok : flipSquareOk T e) (col : Colour) :
    triFlip T (canonMin T.ep e) col = triFlip T e col := by
  rcases canonMin_mem T.ep e with h | h
  · rw [h]
  · rw [h]
    exact triFlip_ep_symm T e col (hinv e) hok

theorem flipSquareOk_canonMin {T : Tri n} (hinv : ∀ x, T.ep (T.ep x) = x)
    {e : Fin n} (hok : flipSquareOk T e) :
    flipSquareOk T (canonMin T.ep e) := by
  rcases canonMin_mem T.ep e with h | h
  · rw [h]
    exact hok
  · rw [h]
    exact flipSquareOk_ep (hinv e) hok

/-- On a stepwise-flippable list, canonicalising the edges does not change
the replayed triangulation: a flip is insensitive to edge orientation. -/
theorem applyFlips_canonPs {T : Tri n} (hinv : ∀ x, T.ep (T.ep x) = x)
    {ps : List (Fin n × Colour)} (hok : flipsOkB T ps = true) :
    applyFlips (canonPs T.ep ps) T = applyFlips ps T := by
  induction ps generalizing T with
  | nil => rfl
  | cons f ps ih =>
    rw [flipsOkB_cons, Bool.and_eq_true, decide_eq_true_eq] at hok
    show applyFlips (canonPs T.ep ps)
      (triFlip T (canonMin T.ep f.1) f.2) = _
    rw [triFlip_canonMin hinv hok.1]
    exact ih (fun x => hinv x) hok.2

theorem replayOkB_cons (T : Tri n) (t : Fin n × Colour × Colour)
    (fs : List (Fin n × Colour × Colour)) :
    replayOkB T (t :: fs)
      = (stepOkB T t && replayOkB (triFlip T t.1 t.2.1) fs) := rfl

/-- The triples recorded from a stepwise-flippable list of canonicalised
flips form a valid replay. -/
theorem replayOk_annotate {T : Tri n} (hinv : ∀ x, T.ep (T.ep x) = x)
    {ps : List (Fin n × Colour)} (hok : flipsOkB T ps = true) :
    replayOkB T (annotate T (canonPs T.ep ps)) = true := by
  induction ps generalizing T with
  | nil => rfl
  | cons f ps ih =>
    rw [flipsOkB_cons, Bool.and_eq_true, decide_eq_true_eq] at hok
    show replayOkB T
      (annotate T ((canonMin T.ep f.1, f.2) :: canonPs T.ep ps)) = true
    rw [annotate_cons, replayOkB_cons, Bool.and_eq_true]
    refine ⟨?_, ?_⟩
    · unfold stepOkB
      rw [Bool.and_eq_true, Bool.and_eq_true]
      exact ⟨⟨decide_eq_true (canonMin_le hinv f.1), decide_eq_true rfl⟩,
        decide_eq_true (flipSquareOk_canonMin hinv hok.1)⟩
    · show replayOkB (triFlip T (canonMin T.ep f.1) f.2)
        (annotate (triFlip T (canonMin T.ep f.1) f.2)
          (canonPs T.ep ps)) = true
      rw [triFlip_canonMin hinv hok.1]
      exact ih (fun x => hinv x) hok.2

theorem flipsOkB_relabel {p : Fin n → Fin n} (hp : Function.Bijective p)
    {T : Tri n} {ps : List (Fin n × Colour)} (h : flipsOkB T ps = true) :
    flipsOkB (relabelTri p T) (ps.map (fun q => (p q.1, q.2))) = true := by
  induction ps generalizing T with
  | nil => rfl
  | cons f ps ih =>
    rw [flipsOkB_cons, Bool.and_eq_true, decide_eq_true_eq] at h
    rw [List.map_cons]
    show (decide (flipSquareOk (relabelTri p T) (p f.1))
      && flipsOkB (triFlip (relabelTri p T) (p f.1) f.2)
        (ps.map (fun q => (p q.1, q.2)))) = true
    rw [Bool.and_eq_true, decide_eq_true_eq]
    refine ⟨flipSquareOk_relabel hp h.1, ?_⟩
    rw [← relabelTri_triFlip hp]
    exact ih h.2

theorem applyFlips_relabel {p : Fin n → Fin n} (hp : Function.Bijective p)
    (ps : List (Fin n × Colour)) (T : Tri n) :
    applyFlips (ps.map (fun q => (p q.1, q.2))) (relabelTri p T)
      = relabelTri p (applyFlips ps T) := by
  induction ps generalizing T with
  | nil => rfl
  | cons f ps ih =>
    rw [List.map_cons]
    show applyFlips (ps.map (fun q => (p q.1, q.2)))
      (triFlip (relabelTri p T) (p f.1) f.2) = _
    rw [← relabelTri_triFlip hp]
    exact ih (triFlip T f.1 f.2)

theorem swapVals_eq (c ep : Fin n → Fin n) (i : Fin n) :
    swapVals c i (ep i) = fun x => c (swapEp ep i x) := by
  funext x
  unfold swapVals swapEp
  by_cases h1 : x = i
  · simp [h1]
  · by_cases h2 : x = ep i
    · by_cases h3 : ep i = i
      · simp [h1, h2, h3]
      · simp [h1, h2, h3]
    · simp [h1, h2]

theorem corrList_append (ep : Fin n → Fin n) (A B : List (Fin n))
    (x : Fin n) :
    corrList ep (A ++ B) x = corrList ep B (corrList ep A x) := by
  induction A generalizing x with
  | nil => rfl
  | cons a A ih =>
    simp only [List.cons_append, corrList_cons]
    exact ih (swapEp ep a x)

/-- The in-place swap loop of `inverse()` computes the product of the
half-edge transpositions of the processed edges, innermost first. -/
theorem foldl_swapVals_pairs (ep : Fin n → Fin n)
    (L : List (Fin n × Colour)) (c₀ : Fin n → Fin n) :
    L.foldl (fun c f => swapVals c f.1 (ep f.1)) c₀
      = fun x => c₀ (corrList ep (L.reverse.map (fun f => f.1)) x) := by
  induction L generalizing c₀ with
  | nil => rfl
  | cons i L ih =>
    rw [List.foldl_cons, ih, swapVals_eq]
    funext x
    rw [List.reverse_cons, List.map_append, corrList_append]
    rfl

/-- The orientation-correcting permutation of `inverse()` is the product
of the transpositions of the (relabelled) flipped edges in log order. -/
theorem invCorr_eq (F : VFS n) :
    invCorr F
      = corrList F.startT.ep (F.flips.map (fun t => F.rel t.1)) := by
  unfold invCorr invFlips
  rw [foldl_swapVals_pairs, List.map_reverse, List.map_reverse,
    List.map_reverse, List.reverse_reverse, List.map_map]
  have hcomp : ((fun f : Fin n × Colour => f.1) ∘
      (fun t : Fin n × Colour × Colour =>
        (F.rel t.1, Colour.opp t.2.2)))
      = fun t : Fin n × Colour × Colour => F.rel t.1 := rfl
  rw [hcomp]

theorem swapEp_comm_ep {ep : Fin n → Fin n} (hinv : ∀ x, ep (ep x) = x)
    (e y : Fin n) : swapEp ep e (ep y) = ep (swapEp ep e y) := by
  by_cases h1 : y = e
  · rw [h1, swapEp_at_e, swapEp_at_ep (hinv e), hinv e]
  · by_cases h2 : y = ep e
    · rw [h2, swapEp_at_ep (hinv e), hinv e, swapEp_at_e]
    · have hepe : ep y ≠ e := fun h => h2 (by rw [← hinv y, h])
      have hepE : ep y ≠ ep e := fun h => h1 (by rw [← hinv y, h, hinv])
      rw [swapEp_at_other h1 h2, swapEp_at_other hepe hepE]

theorem corrList_comm_ep {ep : Fin n → Fin n} (hinv : ∀ x, ep (ep x) = x)
    (es : List (Fin n)) (y : Fin n) :
    corrList ep es (ep y) = ep (corrList ep es y) := by
  induction es generalizing y with
  | nil => rfl
  | cons e es ih =>
    simp only [corrList_cons]
    rw [swapEp_comm_ep hinv, ih]

/-- Along a valid replay with definite flip colours, every recorded old
colour is RED or BLUE. -/
theorem oldcols_RB {S : Tri n} {fs : List (Fin n × Colour × Colour)}
    (htri : TriWF S) (hrep : replayOkB S fs = true)
    (hcols : ∀ t ∈ fs, t.2.1 = Colour.RED ∨ t.2.1 = Colour.BLUE) :
    ∀ t ∈ fs, t.2.2 = Colour.RED ∨ t.2.2 = Colour.BLUE := by
  induction fs generalizing S with
  | nil =>
    intro t ht
    cases ht
  | cons u fs ih =>
    obtain ⟨hstep, hrest⟩ := replayOk_head hrep
    obtain ⟨-, hcolS, -⟩ := stepOk_parts hstep
    intro t ht
    rcases List.mem_cons.mp ht with rfl | ht
    · rw [← hcolS]
      exact htri.2.2.2 t.1
    · exact ih (TriWF_triFlip htri (hcols u (List.mem_cons_self u fs)))
        hrest (fun v hv => hcols v (List.mem_cons_of_mem u hv)) t ht

theorem Colour.opp_RB {c : Colour}
    (h : c = Colour.RED ∨ c = Colour.BLUE) :
    Colour.opp c = Colour.RED ∨ Colour.opp c = Colour.BLUE := by
  rcases h with rfl | rfl
  · exact Or.inr rfl
  · exact Or.inl rfl

theorem annotate_cols {T : Tri n} {qs : List (Fin n × Colour)}
    (h : ∀ q ∈ qs, q.2 = Colour.RED ∨ q.2 = Colour.BLUE) :
    ∀ u ∈ annotate T qs, u.2.1 = Colour.RED ∨ u.2.1 = Colour.BLUE := by
  induction qs generalizing T with
  | nil =>
    intro u hu
    cases hu
  | cons f qs ih =>
    intro u hu
    rw [annotate_cons] at hu
    rcases List.mem_cons.mp hu with rfl | hu
    · exact h f (List.mem_cons_self f qs)
    · exact ih (fun q hq => h q (List.mem_cons_of_mem f hq)) u hu

theorem annotate_proj (T : Tri n) (qs : List (Fin n × Colour)) :
    (annotate T qs).map (fun t => (t.1, t.2.1)) = qs := by
  induction qs generalizing T with
  | nil => rfl
  | cons f qs ih =>
    rw [annotate_cons, List.map_cons, ih]

theorem TriWF_rotTri {T : Tri n} (h : TriWF T) : TriWF (rotTri T) := by
  obtain ⟨hinv, hcan, hcoh, hrb⟩ := h
  refine ⟨hinv, hcan, ?_, ?_⟩
  · intro x
    exact congrArg Colour.rot (hcoh x)
  · intro x
    rcases hrb x with h | h
    · right
      show Colour.rot (T.colouring x) = _
      rw [h]
      rfl
    · left
      show Colour.rot (T.colouring x) = _
      rw [h]
      rfl

theorem TriWF_relabelTri {p : Fin n → Fin n} (hp : Function.Bijective p)
    {T : Tri n} (hcomm : ∀ x, p (T.ep x) = T.ep (p x)) (h : TriWF T) :
    TriWF (relabelTri p T) := by
  obtain ⟨hinv, hcan, hcoh, hrb⟩ := h
  have hep : (relabelTri p T).ep = T.ep := relabelTri_ep_comm hp hcomm
  refine ⟨?_, ?_, ?_, ?_⟩
  · intro x
    rw [hep]
    exact hinv x
  · intro x
    rw [hep, numEdges_relabelTri hp hcomm]
    exact hcan x
  · intro x
    rw [hep]
    show T.colouring (permInv p (T.ep x)) = T.colouring (permInv p x)
    rw [permInv_comm_ep hp hcomm]
    exact hcoh (permInv p x)
  · intro x
    exact hrb (permInv p x)

theorem TriWF_endT {F : VFS n} (h : WF F) : TriWF F.endT := by
  obtain ⟨htri, hbij, hcomm, hcols, hreplay, hend⟩ := h
  rw [hend]
  refine TriWF_relabelTri hbij ?_ (TriWF_applyTriples htri hcols)
  intro x
  rw [applyTriples_ep]
  exact hcomm x

/-- Full characterisation of the sequence built by `inverse()` on a
well-formed flip sequence: it is itself well formed (so the final `_check`
passes), its start is the rotation of `end`, and its end is the rotation
of `start` — not `start` itself. -/
theorem inverse_spec {F : VFS n} (h : WF F) :
    WF (invRes F)
    ∧ (invRes F).startT = rotTri F.endT
    ∧ (invRes F).endT = rotTri F.startT := by
  have htri := h.1
  have hbij := h.2.1
  have hcomm := h.2.2.1
  have hcols := h.2.2.2.1
  have hreplay := h.2.2.2.2.1
  have hend := h.2.2.2.2.2
  have hinv := htri.1
  have hepend : F.endT.ep = F.startT.ep := epEq_of_WF h
  have htriE : TriWF F.endT := TriWF_endT h
  have htriB : TriWF (rotTri F.endT) := TriWF_rotTri htriE
  have hinvB := htriB.1
  have hcohB := htriB.2.2.1
  obtain ⟨hEq0, hOk0⟩ := invReplay htri hreplay hcols
  have hB : rotTri F.endT
      = relabelTri F.rel (rotTri (applyTriples F.flips F.startT)) := by
    rw [hend, rotTri_relabelTri]
  have hps : invFlips F
      = (F.flips.reverse.map (fun t => (t.1, Colour.opp t.2.2))).map
          (fun q => (F.rel q.1, q.2)) := by
    unfold invFlips
    rw [List.map_map]
    rfl
  have hOkB : flipsOkB (rotTri F.endT) (invFlips F) = true := by
    rw [hps, hB]
    exact flipsOkB_relabel hbij hOk0
  have hbuild : invRes F
      = ⟨rotTri F.endT,
          relabelTri (fun i => permInv F.rel (invCorr F i))
            (applyFlips (canonPs (rotTri F.endT).ep (invFlips F))
              (rotTri F.endT)),
          annotate (rotTri F.endT)
            (canonPs (rotTri F.endT).ep (invFlips F)),
          fun i => permInv F.rel (invCorr F i)⟩ := by
    unfold invRes
    exact buildSeqC _ _ _ hinvB hcohB
  have hcanonPs : applyFlips (canonPs (rotTri F.endT).ep (invFlips F))
      (rotTri F.endT) = applyFlips (invFlips F) (rotTri F.endT) :=
    applyFlips_canonPs hinvB hOkB
  have hκbij : Function.Bijective
      (corrList F.startT.ep (F.flips.map (fun t => t.1))) :=
    corrList_bijective hinv _
  have hκinv : ∀ x, corrList F.startT.ep (F.flips.map (fun t => t.1))
      (corrList F.startT.ep (F.flips.map (fun t => t.1)) x) = x :=
    corrList_invol hinv _
  have hApply : applyFlips (invFlips F) (rotTri F.endT)
      = relabelTri (fun x => F.rel
          (corrList F.startT.ep (F.flips.map (fun t => t.1)) x))
          (rotTri F.startT) := by
    rw [hps, hB, applyFlips_relabel hbij, hEq0,
      relabelTri_comp hbij hκbij]
  have hic := invCorr_eq F
  have hmm : F.flips.map (fun t => F.rel t.1)
      = (F.flips.map (fun t => t.1)).map F.rel := by
    rw [List.map_map]
    rfl
  have hic2 : invCorr F = fun x => F.rel (corrList F.startT.ep
      (F.flips.map (fun t => t.1)) (permInv F.rel x)) := by
    rw [hic, hmm]
    funext x
    exact corrList_conj hbij hcomm _ x
  have hicbij : Function.Bijective (invCorr F) := by
    rw [hic]
    exact corrList_bijective hinv _
  have hrbij : Function.Bijective
      (fun i => permInv F.rel (invCorr F i)) :=
    Function.Bijective.comp (permInv_bijective hbij) hicbij
  have hρκbij : Function.Bijective (fun x => F.rel
      (corrList F.startT.ep (F.flips.map (fun t => t.1)) x)) :=
    Function.Bijective.comp hbij hκbij
  have hrel_id : (fun x => permInv F.rel (invCorr F
      (F.rel (corrList F.startT.ep (F.flips.map (fun t => t.1)) x))))
      = fun x : Fin n => x := by
    funext x
    rw [hic2]
    show permInv F.rel (F.rel (corrList F.startT.ep
      (F.flips.map (fun t => t.1)) (permInv F.rel
        (F.rel (corrList F.startT.ep
          (F.flips.map (fun t => t.1)) x))))) = x
    rw [permInv_leftInverse hbij, permInv_leftInverse hbij, hκinv]
  have hstartT : (invRes F).startT = rotTri F.endT := by rw [hbuild]
  have hrelb : (invRes F).rel
      = fun i => permInv F.rel (invCorr F i) := by rw [hbuild]
  have hflips : (invRes F).flips
      = annotate (rotTri F.endT)
          (canonPs (rotTri F.endT).ep (invFlips F)) := by rw [hbuild]
  have hendT0 : (invRes F).endT
      = relabelTri (fun i => permInv F.rel (invCorr F i))
          (applyFlips (canonPs (rotTri F.endT).ep (invFlips F))
            (rotTri F.endT)) := by rw [hbuild]
  have hendT : (invRes F).endT = rotTri F.startT := by
    rw [hendT0, hcanonPs, hApply, relabelTri_comp hrbij hρκbij, hrel_id,
      relabelTri_id]
  have hBep : (rotTri F.endT).ep = F.startT.ep := by
    rw [rotTri_ep, hepend]
  have holds : ∀ t ∈ F.flips,
      t.2.2 = Colour.RED ∨ t.2.2 = Colour.BLUE :=
    oldcols_RB htri hreplay hcols
  have hqs : ∀ q ∈ canonPs (rotTri F.endT).ep (invFlips F),
      q.2 = Colour.RED ∨ q.2 = Colour.BLUE := by
    intro q hq
    unfold canonPs at hq
    obtain ⟨q', hq', rfl⟩ := List.mem_map.mp hq
    show q'.2 = Colour.RED ∨ q'.2 = Colour.BLUE
    unfold invFlips at hq'
    obtain ⟨t, ht, rfl⟩ := List.mem_map.mp hq'
    show Colour.opp t.2.2 = Colour.RED ∨ Colour.opp t.2.2 = Colour.BLUE
    exact Colour.opp_RB (holds t (List.mem_reverse.mp ht))
  refine ⟨⟨?_, ?_, ?_, ?_, ?_, ?_⟩, hstartT, hendT⟩
  · rw [hstartT]
    exact htriB
  · rw [hrelb]
    exact hrbij
  · intro x
    rw [hrelb, hstartT, hBep, hic]
    show permInv F.rel (corrList F.startT.ep
        (F.flips.map (fun t => F.rel t.1)) (F.startT.ep x))
      = F.startT.ep (permInv F.rel (corrList F.startT.ep
        (F.flips.map (fun t => F.rel t.1)) x))
    rw [corrList_comm_ep hinv, permInv_comm_ep hbij hcomm]
  · rw [hflips]
    exact annotate_cols hqs
  · rw [hstartT, hflips]
    exact replayOk_annotate hinvB hOkB
  · rw [hendT0, hflips, hrelb, hstartT]
    rw [show applyTriples (annotate (rotTri F.endT)
        (canonPs (rotTri F.endT).ep (invFlips F))) (rotTri F.endT)
      = applyFlips (canonPs (rotTri F.endT).ep (invFlips F))
        (rotTri F.endT) from by rw [← applyFlips_map, annotate_proj]]

/-- On a well-formed sequence, `inverse()` passes both its assertion on the
old colours and its final `_check`, and returns the built sequence. -/
theorem inverseE_ok {F : VFS n} (h : WF F) :
    inverseE F = .ok (invRes F) := by
  obtain ⟨hWFi, -, -⟩ := inverse_spec h
  have holds : ∀ t ∈ F.flips, t.2.2 = Colour.RED ∨ t.2.2 = Colour.BLUE :=
    oldcols_RB h.1 h.2.2.2.2.1 h.2.2.2.1
  unfold inverseE
  rw [if_neg (not_not_intro holds), if_pos (checkB_of_WF hWFi)]

deriving instance DecidableEq for Except

instance (T : Tri n) : Decidable (TriWF T) := by
  unfold TriWF
  infer_instance

instance (F : VFS n) : Decidable (WF F) := by
  unfold WF
  infer_instance

/-! ## Concrete data and the remaining operational models

`T0` is the veering torus triangulation
`VeeringTriangulation("(0,1,2)(~0,~1,~2)", "RRB")` of the flip-sequence
doctests: faces `(0,1,2)` and `(5,4,3)`, involution `i ↦ 5 - i`, colours
`RRB` on the edges. -/

def T0 : Tri 6 where
  fp := ![1, 2, 0, 5, 3, 4]
  ep := ![5, 4, 3, 2, 1, 0]
  colouring := ![Colour.RED, Colour.RED, Colour.BLUE, Colour.BLUE,
    Colour.RED, Colour.RED]

/-- `perm_check(r, n)` — modelled from the spec (§6 permutation service:
"validity check"): `r` is an array of length `n` whose entries form a
permutation of `0..n-1`.  The `relabel` call sites pass only the array and
the length, so no edge involution takes part in this check. -/
def isPermList (r : List ℕ) (n : ℕ) : Bool :=
  decide (r.length = n) && r.all (fun x => decide (x < n))
    && decide r.Nodup

/-- Read a permutation array as a function on half-edges (out-of-range
entries are ignorable: the function is only used behind `isPermList`). -/
def listFun (r : List ℕ) : Fin n → Fin n :=
  fun i => if h : r.getD (i : ℕ) 0 < n then ⟨r.getD (i : ℕ) 0, h⟩ else i

/-- `VeeringFlipSequence.relabel(r)` on an array input: if `perm_check`
accepts the array it is applied at once (no validation against the edge
involution happens at this call site); otherwise the fallback
reinterpretation is validated and a `ValueError` is raised before any
mutation (`perm_init` is modelled from the spec: an input that is not a
valid permutation array fails its validation). -/
def relabelE (F : VFS n) (r : List ℕ) : Except Err (VFS n) :=
  if isPermList r n then .ok (relabelOp F (listFun r))
  else .error .valueError

/-- A veering triangulation linear family: the triangulation together
with the rational subspace rows. -/
structure LinFam (n : ℕ) where
  tri : Tri n
  subspace : List (List ℚ)
deriving DecidableEq

/-- The validation prefix of
`VeeringTriangulationLinearFamily.relabel(p)` (lines 492–495): when
`perm_check` rejects the input the code calls `perm_init`, which is not
imported in `linear_family.py` (line 31), so the fallback path raises
`NameError` — not `ValueError` — before any mutation. -/
def lfRelabelGuard (p : List ℕ) (n : ℕ) : Except Err Unit :=
  if isPermList p n then .ok () else .error .nameError

/-- A dynamically typed Python value, as far as the comparison methods
care: a flip sequence, a linear family, a bare triangulation or an
integer. -/
inductive PyVal (n : ℕ) where
  | flipSeq (F : VFS n)
  | linFam (L : LinFam n)
  | tri (T : Tri n)
  | int (k : ℤ)
deriving DecidableEq

/-- `VeeringFlipSequence.__eq__`: raises `TypeError` unless `other` has
exactly the same type, else compares the four recorded fields. -/
def vfsEqE (F : VFS n) (other : PyVal n) : Except Err Bool :=
  match other with
  | .flipSeq G => .ok (decide (F = G))
  | _ => .error .typeError

/-- `VeeringFlipSequence.__ne__`: `not (self == other)`, propagating the
`TypeError`. -/
def vfsNeE (F : VFS n) (other : PyVal n) : Except Err Bool :=
  match vfsEqE F other with
  | .ok b => .ok (!b)
  | .error e => .error e

/-- `VeeringTriangulationLinearFamily.__eq__`: raises `TypeError` unless
`other` has exactly the same type, else compares triangulation and
subspace. -/
def lfEqE (L : LinFam n) (other : PyVal n) : Except Err Bool :=
  match other with
  | .linFam M => .ok (decide (L.tri = M.tri) && decide (L.subspace = M.subspace))
  | _ => .error .typeError

/-- `VeeringTriangulationLinearFamily.__ne__`: same type gate, else the
disjunction of the field inequalities. -/
def lfNeE (L : LinFam n) (other : PyVal n) : Except Err Bool :=
  match other with
  | .linFam M => .ok (decide (L.tri ≠ M.tri) || decide (L.subspace ≠ M.subspace))
  | _ => .error .typeError

/-! ## Heap model for `copy()` aliasing

The relabelling of a flip sequence lives in a mutable array.  `copy()`
copies `_start`, `_end` and slices `_flips`, but assigns
`F._relabelling = self._relabelling` (line 152) — the copy holds a
reference to the same array, and `swap` writes into that array in
place. -/

structure Store (n : ℕ) where
  cells : List (Fin n → Fin n)
deriving DecidableEq

/-- A flip sequence whose relabelling is a reference into the store. -/
structure VFSRef (n : ℕ) where
  startT : Tri n
  endT : Tri n
  flips : List (Fin n × Colour × Colour)
  relRef : ℕ
deriving DecidableEq

def readRel (σ : Store n) (F : VFSRef n) : Fin n → Fin n :=
  σ.cells.getD F.relRef (fun x => x)

/-- `VeeringFlipSequence.copy()` in the heap model: value fields are
copied, the relabelling reference is shared. -/
def copyRef (F : VFSRef n) : VFSRef n :=
  { startT := F.startT, endT := F.endT, flips := F.flips,
    relRef := F.relRef }

/-- `swap(e)` in the heap model: swap the edge orientation on `_end` and
overwrite the entries `e` and `ep e` of the shared relabelling array in
place. -/
def swapRef (σ : Store n) (F : VFSRef n) (e : Fin n) :
    Store n × VFSRef n :=
  let E := F.endT.ep e
  let c := readRel σ F
  let τ : Fin n → Fin n := fun x => if x = e then E else if x = E then e
    else x
  (⟨σ.cells.set F.relRef
      (fun x => if x = e then E else if x = E then e else c x)⟩,
   { F with endT := relabelTri τ F.endT })

/-- A concrete pseudo-Anosov flip sequence on the `RRB` torus: flip `0`
BLUE then `2` RED and relabel by `(0,2,1)(3,4,5)`. -/
def Fpa : VFS 6 :=
  buildSeq T0 [((0 : Fin 6), Colour.BLUE), ((2 : Fin 6), Colour.RED)]
    (listFun [2, 0, 1, 4, 5, 3])

/-- For a closed well-formed sequence, `is_pseudo_anosov` holds exactly
when every edge is reachable from the flip log under the propagation
step. -/
theorem isPA_iff {F : VFS n} (hF : WF F) (hclosed : F.startT = F.endT) :
    isPA F = true ↔
      ∀ e : Fin n, (e : ℕ) < F.startT.numEdges → Reaches F e := by
  obtain ⟨S, hok, hspec⟩ := unflippedE_spec hF hclosed
  unfold isPA
  rw [if_neg (not_not_intro hclosed), hok]
  show decide (S = ∅) = true ↔ _
  rw [decide_eq_true_eq]
  constructor
  · intro hS e he
    by_contra hre
    have hmem : e ∈ S := (hspec e).mpr ⟨he, hre⟩
    rw [hS] at hmem
    exact absurd hmem (Finset.not_mem_empty e)
  · intro hall
    ext a
    simp only [Finset.not_mem_empty, iff_false]
    rw [hspec a]
    rintro ⟨h1, h2⟩
    exact h2 (hall a h1)

/-- Powers of a closed pseudo-Anosov sequence stay pseudo-Anosov. -/
theorem isPA_powRes {F : VFS n} (hF : WF F) (hclosed : F.endT = F.startT)
    (hpa : isPA F = true) (k : ℕ) : isPA (powRes F (k + 2)) = true := by
  have hP : WF (powRes F (k + 2)) := WF_powRes hF hclosed k
  have hPclosed : (powRes F (k + 2)).startT = (powRes F (k + 2)).endT :=
    hclosed.symm
  rw [isPA_iff hP hPclosed]
  intro e he
  exact Reaches_powRes hF k ((isPA_iff hF hclosed.symm).mp hpa e he)

/-! ## The ten claims -/

/-- C1: the closure-replay invariant is NOT maintained by every operation.
On the `RRB` torus the freshly built sequence is well formed and a first
`swap(0)` keeps `_check` satisfied, but a second `swap(0)` leaves a state
whose replay does not reproduce `end`: `swap` overwrites the relabelling
entries at `e` and `ep e` instead of composing the transposition into the
accumulated relabelling. -/
theorem claim_C1 :
    WF (mkSeq T0)
    ∧ checkB (swapOp (mkSeq T0) 0) = true
    ∧ checkB (swapOp (swapOp (mkSeq T0) 0) 0) = false := by
  refine ⟨by decide, by decide, by decide⟩

/-- C2: composition of flip sequences is associative: when the ends match,
all four products are defined (both `_check`s pass) and `(F*G)*H` equals
`F*(G*H)` structurally. -/
theorem claim_C2 {F G H : VFS n} (hF : WF F) (hG : WF G) (hH : WF H)
    (h1 : F.endT = G.startT) (h2 : G.endT = H.startT) :
    ∃ FG GH P Q, mulE F G = .ok FG ∧ mulE G H = .ok GH
      ∧ mulE FG H = .ok P ∧ mulE F GH = .ok Q ∧ P = Q := by
  obtain ⟨e1, e2, e3, e4⟩ := mul_assoc_ok hF hG hH h1 h2
  exact ⟨imulRes F G, imulRes G H, imulRes (imulRes F G) H,
    imulRes (imulRes F G) H, e1, e2, e3, e4, rfl⟩

/-- Witness for C2 at the concrete pseudo-Anosov torus sequence. -/
theorem claim_C2_witness :
    ∃ FG GH P Q, mulE Fpa Fpa = .ok FG ∧ mulE Fpa Fpa = .ok GH
      ∧ mulE FG Fpa = .ok P ∧ mulE Fpa GH = .ok Q ∧ P = Q :=
  claim_C2 (by decide) (by decide) (by decide) (by decide) (by decide)

/-- C3 (corrected): on a well-formed sequence `inverse()` succeeds, but it
returns a rotated conjugate: `F.inverse().start` is `rotate(F.end)` and
`F.inverse().end` is `rotate(F.start)` — never `F.start` itself once there
is at least one edge, since rotation exchanges RED and BLUE. -/
theorem claim_C3 {F : VFS n} (hF : WF F) :
    inverseE F = .ok (invRes F)
    ∧ (invRes F).startT = rotTri F.endT
    ∧ (invRes F).endT = rotTri F.startT
    ∧ (0 < n → (invRes F).endT ≠ F.startT) := by
  obtain ⟨hWFi, hs, he⟩ := inverse_spec hF
  refine ⟨inverseE_ok hF, hs, he, ?_⟩
  intro hn heq
  rw [he] at heq
  have hcol := congrArg (fun T : Tri n => T.colouring ⟨0, hn⟩) heq
  have hcol2 : Colour.rot (F.startT.colouring ⟨0, hn⟩)
      = F.startT.colouring ⟨0, hn⟩ := hcol
  rcases hF.1.2.2.2 ⟨0, hn⟩ with h | h
  · rw [h] at hcol2
    exact absurd hcol2 (by decide)
  · rw [h] at hcol2
    exact absurd hcol2 (by decide)

/-- Witness for C3 at the concrete pseudo-Anosov torus sequence. -/
theorem claim_C3_witness :
    inverseE Fpa = .ok (invRes Fpa)
    ∧ (invRes Fpa).startT = rotTri Fpa.endT
    ∧ (invRes Fpa).endT = rotTri Fpa.startT
    ∧ (0 < 6 → (invRes Fpa).endT ≠ Fpa.startT) :=
  claim_C3 (by decide)

/-- Counterexample for C3's original wording: on the concrete sequence the
inverse is built and checked successfully, yet its `end` differs from the
original `start` (the colours are rotated). -/
theorem claim_C3_cex :
    inverseE Fpa = .ok (invRes Fpa)
    ∧ (invRes Fpa).endT ≠ Fpa.startT := by
  refine ⟨by decide, by decide⟩

/-- C4: for a closed well-formed sequence, `F ** 0` is the identity
sequence at `F.start` (same start and end, empty log, identity
relabelling) and `F ** 2` equals `F * F` structurally, although the power
replicates the log through inverse-relabelling pullbacks instead of
calling composition. -/
theorem claim_C4 {F : VFS n} (hF : WF F) (hclosed : F.endT = F.startT) :
    powE F 0 = .ok (mkSeq F.startT)
    ∧ (mkSeq F.startT).startT = F.startT
    ∧ (mkSeq F.startT).endT = F.startT
    ∧ (mkSeq F.startT).flips = ([] : List (Fin n × Colour × Colour))
    ∧ (mkSeq F.startT).rel = (fun x => x)
    ∧ powE F 2 = .ok (powRes F 2)
    ∧ mulE F F = .ok (imulRes F F)
    ∧ powRes F 2 = imulRes F F := by
  refine ⟨?_, rfl, rfl, rfl, rfl, powE_ok_big hF hclosed 0,
    imulE_ok hF hF hclosed, powRes_two F⟩
  unfold powE
  rw [if_neg (not_not_intro hclosed), if_pos rfl]

/-- Witness for C4 at the concrete pseudo-Anosov torus sequence. -/
theorem claim_C4_witness :
    powE Fpa 0 = .ok (mkSeq Fpa.startT)
    ∧ (mkSeq Fpa.startT).startT = Fpa.startT
    ∧ (mkSeq Fpa.startT).endT = Fpa.startT
    ∧ (mkSeq Fpa.startT).flips = ([] : List (Fin 6 × Colour × Colour))
    ∧ (mkSeq Fpa.startT).rel = (fun x => x)
    ∧ powE Fpa 2 = .ok (powRes Fpa 2)
    ∧ mulE Fpa Fpa = .ok (imulRes Fpa Fpa)
    ∧ powRes Fpa 2 = imulRes Fpa Fpa :=
  claim_C4 (by decide) (by decide)

/-- C5: a closed well-formed pseudo-Anosov sequence stays pseudo-Anosov
under every positive power: `F ** k` is defined and
`is_pseudo_anosov` still holds. -/
theorem claim_C5 {F : VFS n} (hF : WF F) (hclosed : F.endT = F.startT)
    (hpa : isPA F = true) (k : ℕ) (hk : 1 ≤ k) :
    ∃ P, powE F k = .ok P ∧ isPA P = true := by
  rcases k with _ | _ | m
  · omega
  · refine ⟨F, ?_, hpa⟩
    unfold powE
    rw [if_neg (not_not_intro hclosed), if_neg (by omega), if_pos rfl]
  · exact ⟨powRes F (m + 2), powE_ok_big hF hclosed m,
      isPA_powRes hF hclosed hpa m⟩

/-- Witness for C5: the cube of the concrete pseudo-Anosov torus
sequence. -/
theorem claim_C5_witness : ∃ P, powE Fpa 3 = .ok P ∧ isPA P = true :=
  claim_C5 (by decide) (by decide) (by decide) 3 (by decide)

/-- C6: `is_pseudo_anosov` is false on a non-closed sequence, and on a
closed well-formed sequence `unflipped_edges` returns exactly the edges
not reachable from the flip log under repeated relabelling-propagation
(normalised through the edge involution); `is_pseudo_anosov` holds exactly
when that set is empty. -/
theorem claim_C6 {F : VFS n} (hF : WF F) :
    (F.startT ≠ F.endT → isPA F = false)
    ∧ (F.startT = F.endT →
        ∃ S, unflippedE F = .ok S
          ∧ (∀ e : Fin n, e ∈ S ↔
              ((e : ℕ) < F.startT.numEdges ∧ ¬ Reaches F e))
          ∧ (isPA F = true ↔ S = ∅)) := by
  constructor
  · intro hne
    unfold isPA
    rw [if_pos hne]
  · intro hclosed
    obtain ⟨S, hok, hspec⟩ := unflippedE_spec hF hclosed
    refine ⟨S, hok, hspec, ?_⟩
    unfold isPA
    rw [if_neg (not_not_intro hclosed), hok]
    show decide (S = ∅) = true ↔ S = ∅
    rw [decide_eq_true_eq]

/-- Witness for C6 at the concrete pseudo-Anosov torus sequence. -/
theorem claim_C6_witness :
    (Fpa.startT ≠ Fpa.endT → isPA Fpa = false)
    ∧ (Fpa.startT = Fpa.endT →
        ∃ S, unflippedE Fpa = .ok S
          ∧ (∀ e : Fin 6, e ∈ S ↔
              ((e : ℕ) < Fpa.startT.numEdges ∧ ¬ Reaches Fpa e))
          ∧ (isPA Fpa = true ↔ S = ∅)) :=
  claim_C6 (by decide)

/-- C8 (corrected): `relabel` validates the input only as a bare
permutation array (`perm_check` receives no involution): a malformed array
fails before mutation — with `ValueError` on a flip sequence but
`NameError` on a linear family, whose module never imports `perm_init` —
while a valid permutation array is applied unconditionally, even when it
is inconsistent with the edge involution. -/
theorem claim_C8 (F : VFS n) (r : List ℕ) :
    (isPermList r n = false → relabelE F r = .error .valueError)
    ∧ (isPermList r n = true →
        relabelE F r = .ok (relabelOp F (listFun r)))
    ∧ (isPermList r n = false → lfRelabelGuard r n = .error .nameError) := by
  refine ⟨?_, ?_, ?_⟩
  · intro h
    unfold relabelE
    rw [if_neg (by rw [h]; exact Bool.false_ne_true)]
  · intro h
    unfold relabelE
    rw [if_pos h]
  · intro h
    unfold lfRelabelGuard
    rw [if_neg (by rw [h]; exact Bool.false_ne_true)]

/-- Witness for C8: a malformed array on the torus sequence and on the
linear-family guard, and an accepted valid array. -/
theorem claim_C8_witness :
    relabelE (mkSeq T0) [0, 0, 0, 0, 0, 0] = .error .valueError
    ∧ relabelE (mkSeq T0) [1, 0, 2, 3, 4, 5]
        = .ok (relabelOp (mkSeq T0) (listFun [1, 0, 2, 3, 4, 5]))
    ∧ lfRelabelGuard [0, 0, 0, 0, 0, 0] 6 = .error .nameError := by
  refine ⟨(claim_C8 (mkSeq T0) [0, 0, 0, 0, 0, 0]).1 (by decide),
    (claim_C8 (mkSeq T0) [1, 0, 2, 3, 4, 5]).2.1 (by decide),
    (claim_C8 (mkSeq T0) [0, 0, 0, 0, 0, 0]).2.2 (by decide)⟩

/-- Counterexample for C8's original wording: the transposition `(0 1)` is
a valid permutation array yet inconsistent with the torus edge involution;
`relabel` raises nothing and mutates the sequence, and the linear-family
fallback raises `NameError`, not `ValueError`. -/
theorem claim_C8_cex :
    (¬ ∀ x, listFun [1, 0, 2, 3, 4, 5] (T0.ep x)
        = T0.ep (listFun [1, 0, 2, 3, 4, 5] x))
    ∧ relabelE (mkSeq T0) [1, 0, 2, 3, 4, 5] ≠ .error .valueError
    ∧ relabelOp (mkSeq T0) (listFun [1, 0, 2, 3, 4, 5]) ≠ mkSeq T0
    ∧ lfRelabelGuard [0, 0, 0, 0, 0, 0] 6 ≠ .error .valueError := by
  refine ⟨by decide, by decide, by decide, by decide⟩

/-- C9: `copy()` does not deep-copy the relabelling: the copy shares the
relabelling array (`F._relabelling = self._relabelling`), and `swap` on
the copy writes into that array in place, so the original's relabelling
changes. -/
theorem claim_C9 :
    (copyRef (⟨T0, T0, [], 0⟩ : VFSRef 6)).relRef
      = (⟨T0, T0, [], 0⟩ : VFSRef 6).relRef
    ∧ readRel (swapRef ⟨[fun x => x]⟩ (copyRef ⟨T0, T0, [], 0⟩) 0).1
        (⟨T0, T0, [], 0⟩ : VFSRef 6)
      ≠ readRel (⟨[fun x => x]⟩ : Store 6) (⟨T0, T0, [], 0⟩ : VFSRef 6) := by
  refine ⟨by decide, by decide⟩

/-- C10: comparing a flip sequence or a linear family against a value of
any other type with `==` or `!=` raises `TypeError` rather than returning
a boolean. -/
theorem claim_C10 {n : ℕ} (F : VFS n) (L : LinFam n) (v : PyVal n) :
    ((∀ G, v ≠ PyVal.flipSeq G) →
      vfsEqE F v = .error .typeError ∧ vfsNeE F v = .error .typeError)
    ∧ ((∀ M, v ≠ PyVal.linFam M) →
      lfEqE L v = .error .typeError ∧ lfNeE L v = .error .typeError) := by
  constructor
  · intro hv
    cases v with
    | flipSeq G => exact absurd rfl (hv G)
    | linFam M => exact ⟨rfl, rfl⟩
    | tri T => exact ⟨rfl, rfl⟩
    | int k => exact ⟨rfl, rfl⟩
  · intro hv
    cases v with
    | flipSeq G => exact ⟨rfl, rfl⟩
    | linFam M => exact absurd rfl (hv M)
    | tri T => exact ⟨rfl, rfl⟩
    | int k => exact ⟨rfl, rfl⟩

/-- Witness for C10: comparing the torus sequence and a torus linear
family against the integer `0`. -/
theorem claim_C10_witness :
    (vfsEqE (mkSeq T0) (PyVal.int 0) = .error .typeError
      ∧ vfsNeE (mkSeq T0) (PyVal.int 0) = .error .typeError)
    ∧ (lfEqE (⟨T0, []⟩ : LinFam 6) (PyVal.int 0) = .error .typeError
      ∧ lfNeE (⟨T0, []⟩ : LinFam 6) (PyVal.int 0) = .error .typeError) := by
  have h := claim_C10 (mkSeq T0) (⟨T0, []⟩ : LinFam 6) (PyVal.int 0)
  exact ⟨h.1 (fun G hG => PyVal.noConfusion hG),
    h.2 (fun M hM => PyVal.noConfusion hM)⟩

end Veerer
